import Mathlib

/-!
diff-explore: the windowed list model, the commit range selector and the event loop

A shallow embedding of the navigation engine of diff-explore.

* `listModel` and its transitions are taken from `diff-explore.go`
  (value receivers: every method returns the updated copy).
* `MainGo` embeds `main.go`: `getCommitRange`, `getStatus` and `Update`.
  The list methods that `main.go` calls live in a file that is not part of the
  sources at hand, so they are taken as a parameter (`ListOps`).
* `DiffGo` embeds `diff.go`: `setDiff` and `refresh`.

Go `int` is modelled by `Int`: every value is a slice length, a terminal size or
an index derived from them, far below the 64 bit range.  A Go run-time panic
(index out of range, slice bounds out of range) is the value `none`.
-/

/-! ## The list model of diff-explore.go -/

/-- The struct `listModel` of diff-explore.go. -/
structure listModel where
  count : Int
  first : Int
  last : Int
  height : Int
  cursor : Int
  marked : Int
deriving DecidableEq

namespace listModel

/-- The method `setHeight` of diff-explore.go, lines 171-183. -/
def setHeight (m : listModel) (height : Int) : listModel :=
  let m : listModel := if height < m.count then { m with height := height } else { m with height := m.count }
  let m : listModel := { m with last := m.first + m.height - 1 }
  if m.cursor > m.last - 1 then
    let m : listModel := { m with last := m.cursor + 1 }
    { m with first := m.last - m.height + 1 }
  else
    m

/-- The method `nextPage` of diff-explore.go, lines 185-204. -/
def nextPage (m : listModel) : listModel :=
  let m : listModel := if m.cursor ≠ (-1 : Int) then { m with cursor := m.cursor + m.height } else m
  let m : listModel := { m with first := m.first + m.height }
  let m : listModel := { m with last := m.last + m.height }
  let m : listModel :=
    if m.last ≥ m.count then
      let m : listModel := { m with last := m.count - 1 }
      { m with first := m.last - m.height + 1 }
    else m
  if m.cursor ≠ (-1 : Int) then
    if m.cursor > m.last then { m with cursor := m.last } else m
  else m

/-- The method `prevPage` of diff-explore.go, lines 206-225. -/
def prevPage (m : listModel) : listModel :=
  let m : listModel := if m.cursor ≠ (-1 : Int) then { m with cursor := m.cursor - m.height } else m
  let m : listModel := { m with first := m.first - m.height }
  let m : listModel := { m with last := m.last - m.height }
  let m : listModel :=
    if m.first < 0 then
      let m : listModel := { m with first := 0 }
      { m with last := m.first + m.height - 1 }
    else m
  if m.cursor ≠ (-1 : Int) then
    if m.cursor < 0 then { m with cursor := 0 } else m
  else m

/-- The method `nextItem` of diff-explore.go, lines 227-242. -/
def nextItem (m : listModel) : listModel :=
  if m.cursor = -1 then
    if m.last < m.count - 1 then
      let m : listModel := { m with first := m.first + 1 }
      { m with last := m.last + 1 }
    else m
  else if m.cursor < m.count - 1 then
    let m : listModel := { m with cursor := m.cursor + 1 }
    if m.cursor > m.last - 1 then
      let m : listModel := { m with first := m.first + 1 }
      { m with last := m.last + 1 }
    else m
  else m

/-- The method `prevItem` of diff-explore.go, lines 244-259. -/
def prevItem (m : listModel) : listModel :=
  if m.cursor = -1 then
    if m.first > 0 then
      let m : listModel := { m with first := m.first - 1 }
      { m with last := m.last - 1 }
    else m
  else if m.cursor > 0 then
    let m : listModel := { m with cursor := m.cursor - 1 }
    if m.cursor < m.first then
      let m : listModel := { m with first := m.first - 1 }
      { m with last := m.last - 1 }
    else m
  else m

end listModel

/-- One of the two single-row moves, `nextItem` or `prevItem`. -/
inductive ItemOp where
  | next
  | prev
deriving DecidableEq

/-- Apply one single-row move. -/
def ItemOp.apply : ItemOp → listModel → listModel
  | .next, m => m.nextItem
  | .prev, m => m.prevItem

/-- Apply a finite sequence of `nextItem` / `prevItem` calls, left to right. -/
def runItemOps (m : listModel) (ops : List ItemOp) : listModel :=
  ops.foldl (fun s op => op.apply s) m

/-! ## Shared records and Go slice indexing -/

/-- Go slice indexing `xs[i]`: a run-time panic (the value `none`) when `i` is
negative or not below the length. -/
def goIndex {α : Type} (xs : List α) (i : Int) : Option α :=
  if i < 0 then none else xs[i.toNat]?

/-- Modelled from the spec: the record `commit` is declared in a file that is not
among the sources (section 3, Commit: revision id, author name, commit timestamp,
subject line, decoration info); the field names are the ones main.go reads. -/
structure commit where
  Commit : String
  AuthorName : String
  Timestamp : Int
  Subject : String
  Decoration : String
deriving DecidableEq

/-- Modelled from the spec: the record `stat` is declared in a file that is not
among the sources (section 3, StatEntry: file path, old path, change kind); the
field names are the ones main.go and diff.go read. -/
structure stat where
  Path : String
  OldPath : String
  Change : String
deriving DecidableEq

/-! ## main.go -/

namespace MainGo

/-- The type `view` of main.go is a Go string. -/
abbrev view := String

/-- The constant `commitsView`. -/
def commitsView : view := "commits"

/-- The constant `statsView`. -/
def statsView : view := "stats"

/-- The constant `diffView`. -/
def diffView : view := "diff"

/-- The struct `watcherMessage` of main.go. -/
structure watcherMessage where
  event : String
  path : String
deriving DecidableEq

/-- The struct `diffModel` of main.go. -/
structure diffModel where
  path : String
  oldPath : String
  list : listModel
deriving DecidableEq

/-- The struct `appModel` of main.go. -/
structure appModel where
  height : Int
  width : Int
  history : List view
  watcherReady : Bool
  commits : List commit
  commitsList : listModel
  stats : List stat
  statsList : listModel
  diff : List String
  diffModel : diffModel
  status : String
deriving DecidableEq

/-- The list methods and constructors that main.go calls on `listModel`.  They
are declared in a file that is not among the sources (main.go calls them as
statements on addressable fields, so they have pointer receivers there); each is
taken as a function from the old list state to the new one. -/
structure ListOps where
  newListModel : Int → listModel
  newCursorlessListModel : Int → listModel
  setHeight : listModel → Int → listModel
  setCount : listModel → Int → listModel
  nextPage : listModel → listModel
  prevPage : listModel → listModel
  nextItem : listModel → listModel
  prevItem : listModel → listModel

/-- The two queries main.go sends to git, `gitDiffStat(start, end)` and
`gitDiff(start, end, path, oldPath)`, as functions of their arguments. -/
structure Git where
  gitDiffStat : String → String → List stat
  gitDiff : String → String → String → String → List String

/-- The messages `Update` switches on: a terminal resize, a key press (the value
of `msg.String()`), a watcher message, and any other message. -/
inductive Msg where
  | WindowSizeMsg (Width Height : Int)
  | KeyMsg (key : String)
  | watcher (msg : watcherMessage)
  | other
deriving DecidableEq

/-- The command returned next to the model: `nil` or `tea.Quit`. -/
inductive Cmd where
  | none
  | Quit
deriving DecidableEq

/-- The function `trunc` of main.go, lines 51-56.  `len(s)` is the byte length and
`s[:size]` cuts at a byte position; both call sites pass the constant 8. -/
def trunc (s : String) (size : Nat) : String :=
  if s.utf8ByteSize > size then s.extract 0 ⟨size⟩ else s

namespace appModel

/-- The method `currentView`, lines 216-218: `m.history[len(m.history)-1]`. -/
def currentView (m : appModel) : Option view :=
  goIndex m.history ((m.history.length : Int) - 1)

/-- The method `pushView`, lines 220-223. -/
def pushView (m : appModel) (v : view) : appModel :=
  { m with history := m.history ++ [v] }

/-- The method `popView`, lines 225-228: `m.history[:len(m.history)-1]` panics on
an empty stack. -/
def popView (m : appModel) : Option appModel :=
  if (m.history.length : Int) - 1 < 0 then none
  else some { m with history := m.history.take (m.history.length - 1) }

/-- The method `getCommitRange`, lines 230-244. -/
def getCommitRange (m : appModel) : Option (String × String) :=
  match goIndex m.commits m.commitsList.cursor with
  | none => none
  | some c =>
    let start := c.Commit
    if m.commitsList.marked ≥ 0 then
      if m.commitsList.marked > m.commitsList.cursor then
        match goIndex m.commits m.commitsList.marked with
        | none => none
        | some c2 => some (c2.Commit, start)
      else
        match goIndex m.commits m.commitsList.marked with
        | none => none
        | some c2 => some (start, c2.Commit)
    else
      some (start, "")

/-- The reference definition of the commit range, written from the spec
(section 4.2): without a mark the range is `(commits[cursor].Commit, "")`; with a
mark, `start` is the commit at the larger of the two indices and `end` the commit
at the smaller one. -/
def getCommitRangeSpec (commits : List commit) (cursor marked : Int) :
    Option (String × String) :=
  if marked = -1 then
    match goIndex commits cursor with
    | none => none
    | some c => some (c.Commit, "")
  else
    match goIndex commits (max cursor marked), goIndex commits (min cursor marked) with
    | some s, some e => some (s.Commit, e.Commit)
    | _, _ => none

/-- The text `fmt.Sprintf("%s..%s", trunc(start, 8), trunc(end, 8))` of
`getStatus`, after an empty `end` has been replaced by the index marker. -/
def rangeText (r : String × String) : String :=
  let end_ : String := if r.2 = "" then "<index>" else r.2
  trunc r.1 8 ++ ".." ++ trunc end_ 8

/-- The method `getStatus`, lines 246-270. -/
def getStatus (m : appModel) : Option String :=
  match m.currentView with
  | none => none
  | some v =>
    if v = commitsView then
      match m.getCommitRange with
      | none => none
      | some r => some (rangeText r)
    else if v = statsView then
      match m.getCommitRange with
      | none => none
      | some r => some (rangeText r)
    else if v = diffView then
      match m.getCommitRange with
      | none => none
      | some r =>
        match goIndex m.stats m.statsList.cursor with
        | none => none
        | some s => some (rangeText r ++ ": " ++ s.Path)
    else
      some ""

/-- The tail of `Update`, lines 385-387: `m.status = m.getStatus()` and
`return m, nil`. -/
def withStatus (m : appModel) : Option (appModel × Cmd) :=
  match m.getStatus with
  | none => none
  | some s => some ({ m with status := s }, Cmd.none)

/-- The dispatch chain `if m.currentView() == commitsView ... else if ... statsView
... else if ... diffView` that `Update` repeats for resize, paging and scrolling:
the list of the screen on top is replaced by `f` of itself. -/
def onCurrentList (m : appModel) (f : listModel → listModel) : Option appModel :=
  match m.currentView with
  | none => none
  | some v =>
    if v = commitsView then some { m with commitsList := f m.commitsList }
    else if v = statsView then some { m with statsList := f m.statsList }
    else if v = diffView then
      some { m with diffModel := { m.diffModel with list := f m.diffModel.list } }
    else some m

/-- The key case `" "` of `Update`, lines 295-302. -/
def toggleMark (m : appModel) : Option appModel :=
  match m.currentView with
  | none => none
  | some v =>
    if v = commitsView then
      if m.commitsList.marked = m.commitsList.cursor then
        some { m with commitsList := { m.commitsList with marked := -1 } }
      else
        some { m with commitsList := { m.commitsList with marked := m.commitsList.cursor } }
    else some m

/-- The key case `"enter"` of `Update`, lines 340-362. -/
def enter (ops : ListOps) (git : Git) (m : appModel) : Option appModel :=
  match m.currentView with
  | none => none
  | some v =>
    if v = commitsView then
      match m.getCommitRange with
      | none => none
      | some (start, end_) =>
        let m : appModel := { m with stats := git.gitDiffStat start end_ }
        let m : appModel := { m with statsList :=
          { count := (m.stats.length : Int), first := 0, last := 0, height := 0,
            cursor := 0, marked := -1 } }
        let m : appModel := { m with statsList := ops.setHeight m.statsList m.height }
        some (m.pushView statsView)
    else if v = statsView then
      match m.getCommitRange with
      | none => none
      | some (start, end_) =>
        match goIndex m.stats m.statsList.cursor with
        | none => none
        | some dm =>
          let m : appModel := { m with diff := git.gitDiff start end_ dm.Path dm.OldPath }
          let m : appModel := { m with diffModel :=
            { path := dm.Path, oldPath := dm.OldPath,
              list := ops.newCursorlessListModel (m.diff.length : Int) } }
          let m : appModel := { m with diffModel :=
            { m.diffModel with list := ops.setHeight m.diffModel.list m.height } }
          some (m.pushView diffView)
    else some m

/-- The watcher case `"filechange"` of `Update`, lines 375-381. -/
def filechange (ops : ListOps) (git : Git) (m : appModel) (msg : watcherMessage) :
    Option appModel :=
  match m.currentView with
  | none => none
  | some v =>
    if v = diffView ∧ m.diffModel.path = msg.path then
      match m.getCommitRange with
      | none => none
      | some (start, end_) =>
        let dm := m.diffModel
        let m : appModel := { m with diff := git.gitDiff start end_ dm.path dm.oldPath }
        some { m with diffModel :=
          { m.diffModel with list := ops.setCount m.diffModel.list (m.diff.length : Int) } }
    else some m

/-- The method `Update`, lines 276-388. -/
def Update (ops : ListOps) (git : Git) (m : appModel) : Msg → Option (appModel × Cmd)
  | .WindowSizeMsg w h =>
    let m : appModel := { m with width := w }
    let m : appModel := { m with height := h }
    (m.onCurrentList (fun l => ops.setHeight l m.height)).bind withStatus
  | .KeyMsg k =>
    if k = "ctrl+c" then some (m, Cmd.Quit)
    else if k = " " then m.toggleMark.bind withStatus
    else if k = "ctrl+f" then (m.onCurrentList ops.nextPage).bind withStatus
    else if k = "ctrl+u" then (m.onCurrentList ops.prevPage).bind withStatus
    else if k = "j" ∨ k = "down" then (m.onCurrentList ops.nextItem).bind withStatus
    else if k = "k" ∨ k = "up" then (m.onCurrentList ops.prevItem).bind withStatus
    else if k = "enter" then (m.enter ops git).bind withStatus
    else if k = "esc" ∨ k = "q" then
      if (m.history.length : Int) = 1 then some (m, Cmd.Quit)
      else m.popView.bind withStatus
    else m.withStatus
  | .watcher msg =>
    if msg.event = "ready" then withStatus { m with watcherReady := true }
    else if msg.event = "filechange" then (m.filechange ops git msg).bind withStatus
    else m.withStatus
  | .other => m.withStatus

end appModel

/-- The model built in `main`, lines 446-452; the fields that the literal leaves
out have their zero values. -/
def initialModel (ops : ListOps) (commits : List commit) : appModel :=
  { height := 0, width := 0, history := [commitsView], watcherReady := false,
    commits := commits, commitsList := ops.newListModel (commits.length : Int),
    stats := [], statsList := ops.newListModel 0,
    diff := [], diffModel := { path := "", oldPath := "", list := ⟨0, 0, 0, 0, 0, 0⟩ },
    status := "" }

/-- The event loop: the messages are handled one at a time by `Update`; a panic
ends the run with `none`, and `tea.Quit` ends it with the model returned. -/
def run (ops : ListOps) (git : Git) : appModel → List Msg → Option appModel
  | m, [] => some m
  | m, msg :: rest =>
    match m.Update ops git msg with
    | none => none
    | some (m1, Cmd.Quit) => some m1
    | some (m1, Cmd.none) => run ops git m1 rest

/-- Three commits, most recent first, used to evaluate the definitions. -/
def exampleCommits : List commit :=
  [⟨"cccccccccc", "Ann", 30, "third", ""⟩,
   ⟨"bbbbbbbbbb", "Bob", 20, "second", ""⟩,
   ⟨"aaaaaaaaaa", "Cid", 10, "first", ""⟩]

/-- The Commits screen over `exampleCommits` with the cursor on row 0 and the
mark on row 2. -/
def exampleModel : appModel :=
  { height := 10, width := 80, history := [commitsView], watcherReady := false,
    commits := exampleCommits, commitsList := ⟨3, 0, 2, 3, 0, 2⟩,
    stats := [], statsList := ⟨0, 0, 0, 0, 0, -1⟩,
    diff := [], diffModel := { path := "", oldPath := "", list := ⟨0, 0, 0, 0, 0, 0⟩ },
    status := "" }

/-- A Stats screen with zero rows over `exampleCommits`: the stat query returned
no entry. -/
def exampleEmptyStats : appModel :=
  { height := 10, width := 80, history := [commitsView, statsView], watcherReady := false,
    commits := exampleCommits, commitsList := ⟨3, 0, 2, 3, 0, -1⟩,
    stats := [], statsList := ⟨0, 0, 0, 0, 0, -1⟩,
    diff := [], diffModel := { path := "", oldPath := "", list := ⟨0, 0, 0, 0, 0, 0⟩ },
    status := "cccccccc..<index>" }

/-- The part of a session during which the screen `v` stays on top: the messages
are handled one at a time by `Update`, none of them quits or panics, and after
each of them `v` is the current view. -/
def runOn (v : view) (ops : ListOps) (git : Git) : appModel → List Msg → Option appModel
  | m, [] => some m
  | m, msg :: rest =>
    match m.Update ops git msg with
    | some (m1, Cmd.none) => if m1.currentView = some v then runOn v ops git m1 rest else none
    | _ => none

/-- An instance of the list methods, used to evaluate the definitions: the methods
of diff-explore.go, the two constructors as the spec describes `init` (cursor 0 or
-1, no mark, first = last = 0), and a `setCount` that replaces the count. -/
def exampleOps : ListOps :=
  { newListModel := fun n => ⟨n, 0, 0, 0, 0, -1⟩,
    newCursorlessListModel := fun n => ⟨n, 0, 0, 0, -1, -1⟩,
    setHeight := listModel.setHeight,
    setCount := fun l n => { l with count := n },
    nextPage := listModel.nextPage,
    prevPage := listModel.prevPage,
    nextItem := listModel.nextItem,
    prevItem := listModel.prevItem }

/-- An instance of the git queries, used to evaluate the definitions: two changed
files for every range, and a diff of three lines that records the range asked
for. -/
def exampleGit : Git :=
  { gitDiffStat := fun _ _ => [⟨"a.go", "", "M"⟩, ⟨"b.go", "", "A"⟩],
    gitDiff := fun start end_ path _ => ["@@ " ++ start ++ ".." ++ end_, "-old " ++ path, "+new"] }

/-- The Stats screen that `exampleOps` and `exampleGit` give after a resize to
80 x 10 and enter on the first of `exampleCommits`. -/
def exampleStats : appModel :=
  { height := 10, width := 80, history := [commitsView, statsView], watcherReady := false,
    commits := exampleCommits, commitsList := ⟨3, 0, 2, 3, 0, -1⟩,
    stats := [⟨"a.go", "", "M"⟩, ⟨"b.go", "", "A"⟩], statsList := ⟨2, 0, 1, 2, 0, -1⟩,
    diff := [], diffModel := { path := "", oldPath := "", list := ⟨0, 0, 0, 0, 0, 0⟩ },
    status := "cccccccc..<index>" }

/-- The Diff screen for "a.go" that enter on `exampleStats` gives. -/
def exampleDiff : appModel :=
  { height := 10, width := 80, history := [commitsView, statsView, diffView],
    watcherReady := false,
    commits := exampleCommits, commitsList := ⟨3, 0, 2, 3, 0, -1⟩,
    stats := [⟨"a.go", "", "M"⟩, ⟨"b.go", "", "A"⟩], statsList := ⟨2, 0, 1, 2, 0, -1⟩,
    diff := ["@@ cccccccccc..", "-old a.go", "+new"],
    diffModel := { path := "a.go", oldPath := "", list := ⟨3, 0, 2, 3, -1, -1⟩ },
    status := "cccccccc..<index>: a.go" }

/-- The part of `Update` before the closing `m.status = m.getStatus()`, lines
277-383: the model that reaches line 385 together with no command, or the model
of an early `return m, tea.Quit`. -/
def appModel.beforeStatus (ops : ListOps) (git : Git) (m : appModel) :
    Msg → Option (appModel × Cmd)
  | .WindowSizeMsg w h =>
    let m : appModel := { m with width := w }
    let m : appModel := { m with height := h }
    (m.onCurrentList (fun l => ops.setHeight l m.height)).map (fun m1 => (m1, Cmd.none))
  | .KeyMsg k =>
    if k = "ctrl+c" then some (m, Cmd.Quit)
    else if k = " " then m.toggleMark.map (fun m1 => (m1, Cmd.none))
    else if k = "ctrl+f" then (m.onCurrentList ops.nextPage).map (fun m1 => (m1, Cmd.none))
    else if k = "ctrl+u" then (m.onCurrentList ops.prevPage).map (fun m1 => (m1, Cmd.none))
    else if k = "j" ∨ k = "down" then
      (m.onCurrentList ops.nextItem).map (fun m1 => (m1, Cmd.none))
    else if k = "k" ∨ k = "up" then
      (m.onCurrentList ops.prevItem).map (fun m1 => (m1, Cmd.none))
    else if k = "enter" then (m.enter ops git).map (fun m1 => (m1, Cmd.none))
    else if k = "esc" ∨ k = "q" then
      if (m.history.length : Int) = 1 then some (m, Cmd.Quit)
      else m.popView.map (fun m1 => (m1, Cmd.none))
    else some (m, Cmd.none)
  | .watcher msg =>
    if msg.event = "ready" then some ({ m with watcherReady := true }, Cmd.none)
    else if msg.event = "filechange" then
      (m.filechange ops git msg).map (fun m1 => (m1, Cmd.none))
    else some (m, Cmd.none)
  | .other => some (m, Cmd.none)

/-- The closing lines 385-387 of `Update` applied to the outcome of
`beforeStatus`: an early `tea.Quit` is returned as it is, every other model gets
its status text from `getStatus`. -/
def afterStatus : appModel × Cmd → Option (appModel × Cmd)
  | (m, Cmd.Quit) => some (m, Cmd.Quit)
  | (m, Cmd.none) => m.withStatus

/-- A second instance of the git queries, used to evaluate the definitions: what
git answers after the file shown has changed on disk. -/
def exampleGit2 : Git :=
  { gitDiffStat := fun _ _ => [⟨"a.go", "", "M"⟩],
    gitDiff := fun start end_ path _ => ["@@ " ++ start ++ ".." ++ end_, "+newer " ++ path] }

end MainGo

/-! ## diff.go -/

namespace DiffGo

/-- Modelled from the spec: the record `commitRange` is declared in a file that is
not among the sources (section 3, CommitRange: derived value with `start` and
`end`); diff.go reads the fields `start` and `end`. -/
structure commitRange where
  start : String
  end_ : String
deriving DecidableEq

/-- The struct `diffModel` of diff.go, lines 9-16.  The type `diffOptions` is
declared outside the sources and is the parameter `Opts`. -/
structure diffModel (Opts : Type) where
  listModel : listModel
  diff : List String
  commits : commitRange
  path : String
  oldPath : String
  opts : Opts

/-- The arguments of one call `gitDiff(start, end, path, oldPath, opts)`. -/
structure gitDiffCall (Opts : Type) where
  start : String
  end_ : String
  path : String
  oldPath : String
  opts : Opts

/-- The method `setDiff`, lines 28-33.  The result is the updated model together
with the arguments of the `gitDiff` call it made.  `init` is the list method
`listModel.init`, which is declared outside the sources. -/
def setDiff {Opts : Type} (gitDiff : gitDiffCall Opts → List String)
    (init : listModel → Int → Bool → listModel)
    (m : diffModel Opts) (c : commitRange) (s : stat) : diffModel Opts × gitDiffCall Opts :=
  let call : gitDiffCall Opts := ⟨c.start, c.end_, s.Path, s.OldPath, m.opts⟩
  let m : diffModel Opts := { m with diff := gitDiff call }
  let m : diffModel Opts := { m with path := s.Path }
  let m : diffModel Opts := { m with oldPath := s.OldPath }
  ({ m with listModel := init m.listModel (m.diff.length : Int) false }, call)

/-- The method `refresh`, lines 35-38.  The result is the updated model together
with the arguments of the `gitDiff` call it made.  `setCount` is the list method
`listModel.setCount`, which is declared outside the sources. -/
def refresh {Opts : Type} (gitDiff : gitDiffCall Opts → List String)
    (setCount : listModel → Int → listModel)
    (m : diffModel Opts) : diffModel Opts × gitDiffCall Opts :=
  let call : gitDiffCall Opts := ⟨m.commits.start, m.commits.end_, m.path, m.oldPath, m.opts⟩
  let m : diffModel Opts := { m with diff := gitDiff call }
  ({ m with listModel := setCount m.listModel (m.diff.length : Int) }, call)

end DiffGo

/-! ## The event loop of diff-explore.go -/

namespace DiffExploreGo

/-- The type `view` of diff-explore.go is a Go string. -/
abbrev view := String

/-- The constant `commitsView`. -/
def commitsView : view := "commits"

/-- The constant `statsView`. -/
def statsView : view := "stats"

/-- The constant `diffView`. -/
def diffView : view := "diff"

/-- The struct `appModel` of diff-explore.go, lines 49-64. -/
structure appModel where
  height : Int
  width : Int
  history : List view
  commits : List commit
  commitsList : listModel
  stats : List stat
  statsList : listModel
  diff : List String
  diffModel : listModel
  status : String
deriving DecidableEq

/-- The two queries diff-explore.go sends to git, `gitDiffStat(commitA, commitB)`
and `gitDiff(commitA, commitB, path)`, as functions of their arguments. -/
structure Git where
  gitDiffStat : String → String → List stat
  gitDiff : String → String → String → List String

/-- The messages `Update` switches on: a terminal resize, a key press (the value
of `msg.String()`) and any other message. -/
inductive Msg where
  | WindowSizeMsg (Width Height : Int)
  | KeyMsg (key : String)
  | other
deriving DecidableEq

/-- The command returned next to the model: `nil` or `tea.Quit`. -/
inductive Cmd where
  | none
  | Quit
deriving DecidableEq

/-- The Go slice expression `s[:n]` on a string: a run-time panic (the value
`none`) when `n` exceeds the byte length. -/
def goPrefix (s : String) (n : Nat) : Option String :=
  if s.utf8ByteSize < n then none else some (s.extract 0 ⟨n⟩)

namespace appModel

/-- The method `currentView`, lines 157-159: `m.history[len(m.history)-1]`. -/
def currentView (m : appModel) : Option view :=
  goIndex m.history ((m.history.length : Int) - 1)

/-- The method `pushView`, lines 161-164. -/
def pushView (m : appModel) (v : view) : appModel :=
  { m with history := m.history ++ [v] }

/-- The method `popView`, lines 166-169: `m.history[:len(m.history)-1]` panics on
an empty stack. -/
def popView (m : appModel) : Option appModel :=
  if (m.history.length : Int) - 1 < 0 then none
  else some { m with history := m.history.take (m.history.length - 1) }

/-- The dispatch chain `if m.currentView() == commitsView ... else if ... statsView
... else if ... diffView` that `Update` repeats for resize, paging and scrolling:
the list of the screen on top is replaced by `f` of itself. -/
def onCurrentList (m : appModel) (f : listModel → listModel) : Option appModel :=
  match m.currentView with
  | none => none
  | some v =>
    if v = commitsView then some { m with commitsList := f m.commitsList }
    else if v = statsView then some { m with statsList := f m.statsList }
    else if v = diffView then some { m with diffModel := f m.diffModel }
    else some m

/-- The key case `" "` of `Update`, lines 285-292. -/
def toggleMark (m : appModel) : Option appModel :=
  match m.currentView with
  | none => none
  | some v =>
    if v = commitsView then
      if m.commitsList.marked = m.commitsList.cursor then
        some { m with commitsList := { m.commitsList with marked := -1 } }
      else
        some { m with commitsList := { m.commitsList with marked := m.commitsList.cursor } }
    else some m

/-- The key case `"enter"` of `Update`, lines 330-358. -/
def enter (git : Git) (m : appModel) : Option appModel :=
  match m.currentView with
  | none => none
  | some v =>
    if v = commitsView then
      match goIndex m.commits m.commitsList.cursor with
      | none => none
      | some c =>
        match goPrefix c.Commit 8 with
        | none => none
        | some commitA =>
          let commitB : String := "HEAD"
          let m : appModel := { m with stats := git.gitDiffStat commitA commitB }
          let m : appModel := m.pushView statsView
          let m : appModel := { m with statsList :=
            { count := (m.stats.length : Int), first := 0, last := 0, height := 0,
              cursor := 0, marked := -1 } }
          let m : appModel := { m with statsList := m.statsList.setHeight m.height }
          some { m with status := commitA ++ ".." ++ commitB }
    else if v = statsView then
      match goIndex m.commits m.commitsList.cursor with
      | none => none
      | some c =>
        match goPrefix c.Commit 8 with
        | none => none
        | some commitA =>
          let commitB : String := "HEAD"
          match goIndex m.stats m.statsList.cursor with
          | none => none
          | some s =>
            let path : String := s.Path
            let m : appModel := { m with diff := git.gitDiff commitA commitB path }
            let m : appModel := { m with diffModel :=
              { count := (m.diff.length : Int), first := 0, last := 0, height := 0,
                cursor := -1, marked := -1 } }
            let m : appModel := { m with diffModel := m.diffModel.setHeight m.height }
            let m : appModel := { m with status := commitA ++ ".." ++ commitB ++ ": " ++ path }
            some (m.pushView diffView)
    else some m

/-- Return the model with no command: the closing `return m, nil` of `Update`. -/
def done (m : Option appModel) : Option (appModel × Cmd) :=
  m.map (fun m1 => (m1, Cmd.none))

/-- The method `Update`, lines 265-369. -/
def Update (git : Git) (m : appModel) : Msg → Option (appModel × Cmd)
  | .WindowSizeMsg w h =>
    let m : appModel := { m with width := w }
    let m : appModel := { m with height := h }
    done (m.onCurrentList (fun l => l.setHeight m.height))
  | .KeyMsg k =>
    if k = "ctrl+c" ∨ k = "q" then some (m, Cmd.Quit)
    else if k = " " then done m.toggleMark
    else if k = "ctrl+f" then done (m.onCurrentList listModel.nextPage)
    else if k = "ctrl+u" then done (m.onCurrentList listModel.prevPage)
    else if k = "j" then done (m.onCurrentList listModel.nextItem)
    else if k = "k" then done (m.onCurrentList listModel.prevItem)
    else if k = "enter" then done (m.enter git)
    else if k = "esc" then
      if (m.history.length : Int) = 1 then some (m, Cmd.Quit)
      else done m.popView
    else some (m, Cmd.none)
  | .other => some (m, Cmd.none)

end appModel

/-- A Stats screen of two files, used to evaluate the definitions. -/
def exampleStats : appModel :=
  { height := 10, width := 80, history := [commitsView, statsView],
    commits := [⟨"cccccccccc", "Ann", 30, "third", ""⟩, ⟨"bbbbbbbbbb", "Bob", 20, "second", ""⟩],
    commitsList := ⟨2, 0, 1, 2, 0, -1⟩,
    stats := [⟨"a.go", "", "M"⟩, ⟨"b.go", "", "A"⟩], statsList := ⟨2, 0, 1, 2, 0, -1⟩,
    diff := [], diffModel := ⟨0, 0, 0, 0, 0, 0⟩,
    status := "cccccccc..HEAD" }

/-- The model built in `main`, lines 407-418; the fields that the literal leaves
out have their zero values. -/
def initialModel (commits : List commit) : appModel :=
  { height := 0, width := 0, history := [commitsView],
    commits := commits,
    commitsList :=
      { count := (commits.length : Int), first := 0, last := 0, height := 0, cursor := 0,
        marked := -1 },
    stats := [],
    statsList := { count := 0, first := 0, last := 0, height := 0, cursor := 0, marked := -1 },
    diff := [], diffModel := ⟨0, 0, 0, 0, 0, 0⟩,
    status := "" }

/-- The event loop: the messages are handled one at a time by `Update`; a panic
ends the run with `none`, and `tea.Quit` ends it with the model returned. -/
def run (git : Git) : appModel → List Msg → Option appModel
  | m, [] => some m
  | m, msg :: rest =>
    match m.Update git msg with
    | none => none
    | some (m1, Cmd.Quit) => some m1
    | some (m1, Cmd.none) => run git m1 rest

/-- The list model of the screen on top of the view stack, the one `View` renders
(lines 374-395); `none` when the stack is empty or its top is not a screen. -/
def appModel.topList (m : appModel) : Option listModel :=
  match m.currentView with
  | none => none
  | some v =>
    if v = commitsView then some m.commitsList
    else if v = statsView then some m.statsList
    else if v = diffView then some m.diffModel
    else none

/-- Six commits, most recent first, used to evaluate the definitions. -/
def exampleCommits : List commit :=
  [⟨"ffffffffff", "Ann", 60, "sixth", ""⟩,
   ⟨"eeeeeeeeee", "Bob", 50, "fifth", ""⟩,
   ⟨"dddddddddd", "Cid", 40, "fourth", ""⟩,
   ⟨"cccccccccc", "Ann", 30, "third", ""⟩,
   ⟨"bbbbbbbbbb", "Bob", 20, "second", ""⟩,
   ⟨"aaaaaaaaaa", "Cid", 10, "first", ""⟩]

/-- An instance of the git queries, used to evaluate the definitions: two changed
files for every range and a diff of three lines. -/
def exampleGit : Git :=
  { gitDiffStat := fun _ _ => [⟨"a.go", "", "M"⟩, ⟨"b.go", "", "A"⟩],
    gitDiff := fun commitA commitB path => ["@@ " ++ commitA ++ ".." ++ commitB, "-old " ++ path, "+new"] }

/-- The Commits screen that `exampleGit` and `exampleCommits` give after a resize
to 80 x 4, enter, a resize to 80 x 2 and esc: the terminal has 2 rows and the
Commits list still has the height 4. -/
def exampleStale : appModel :=
  { height := 2, width := 80, history := [commitsView],
    commits := exampleCommits, commitsList := ⟨6, 0, 3, 4, 0, -1⟩,
    stats := [⟨"a.go", "", "M"⟩, ⟨"b.go", "", "A"⟩], statsList := ⟨2, 0, 1, 2, 0, -1⟩,
    diff := [], diffModel := ⟨0, 0, 0, 0, 0, 0⟩,
    status := "ffffffff..HEAD" }

end DiffExploreGo

/-! # Theorems -/

/-! ## The list model -/

/-- The bound that `nextItem` and `prevItem` keep: the window starts at or after
row 0 and `last` is at most `count`, at most `count - 1` without a cursor. -/
theorem itemOp_apply_bound (op : ItemOp) (m : listModel)
    (h0 : 0 ≤ m.first)
    (hc : (m.cursor = -1 ∧ m.last ≤ m.count - 1) ∨ (0 ≤ m.cursor ∧ m.last ≤ m.count)) :
    0 ≤ (op.apply m).first ∧ (op.apply m).count = m.count ∧
      (((op.apply m).cursor = -1 ∧ (op.apply m).last ≤ (op.apply m).count - 1) ∨
        (0 ≤ (op.apply m).cursor ∧ (op.apply m).last ≤ (op.apply m).count)) := by
  cases op
  · simp only [ItemOp.apply, listModel.nextItem]
    split_ifs <;> (try dsimp only) <;> omega
  · simp only [ItemOp.apply, listModel.prevItem]
    split_ifs <;> (try dsimp only) <;> omega

/-- The bound of `itemOp_apply_bound` along a whole sequence of moves. -/
theorem runItemOps_bound (ops : List ItemOp) (m : listModel)
    (h0 : 0 ≤ m.first)
    (hc : (m.cursor = -1 ∧ m.last ≤ m.count - 1) ∨ (0 ≤ m.cursor ∧ m.last ≤ m.count)) :
    0 ≤ (runItemOps m ops).first ∧ (runItemOps m ops).count = m.count ∧
      (((runItemOps m ops).cursor = -1 ∧ (runItemOps m ops).last ≤ m.count - 1) ∨
        (0 ≤ (runItemOps m ops).cursor ∧ (runItemOps m ops).last ≤ m.count)) := by
  induction ops generalizing m with
  | nil => exact ⟨h0, rfl, hc⟩
  | cons op rest ih =>
    obtain ⟨h1, h2, h3⟩ := itemOp_apply_bound op m h0 hc
    have h := ih (op.apply m) h1 h3
    rw [h2] at h
    exact h

/-- A cursor-disabled list stays cursor-disabled under `nextItem` and `prevItem`. -/
theorem runItemOps_cursorless (ops : List ItemOp) (m : listModel) (hc : m.cursor = -1) :
    (runItemOps m ops).cursor = -1 := by
  induction ops generalizing m with
  | nil => exact hc
  | cons op rest ih =>
    apply ih
    cases op
    · simp only [ItemOp.apply, listModel.nextItem]
      split_ifs <;> (try dsimp only) <;> omega
    · simp only [ItemOp.apply, listModel.prevItem]
      split_ifs <;> (try dsimp only) <;> omega

/-- C2 (counterexample): the state count 3, height 3, window [0, 2], cursor 0
satisfies the data-model invariants, and after `nextItem` twice the window is
[1, 3], so `last` is 3 and exceeds `count - 1 = 2`. -/
theorem itemOps_window_counterexample :
    (1 ≤ (listModel.mk 3 0 2 3 0 (-1)).count ∧
      0 ≤ (listModel.mk 3 0 2 3 0 (-1)).first ∧
      (listModel.mk 3 0 2 3 0 (-1)).first ≤ (listModel.mk 3 0 2 3 0 (-1)).last ∧
      (listModel.mk 3 0 2 3 0 (-1)).last < (listModel.mk 3 0 2 3 0 (-1)).count ∧
      (listModel.mk 3 0 2 3 0 (-1)).last - (listModel.mk 3 0 2 3 0 (-1)).first + 1
        = (listModel.mk 3 0 2 3 0 (-1)).height ∧
      (listModel.mk 3 0 2 3 0 (-1)).first ≤ (listModel.mk 3 0 2 3 0 (-1)).cursor ∧
      (listModel.mk 3 0 2 3 0 (-1)).cursor ≤ (listModel.mk 3 0 2 3 0 (-1)).last) ∧
    runItemOps (listModel.mk 3 0 2 3 0 (-1)) [ItemOp.next, ItemOp.next]
      = listModel.mk 3 1 3 3 2 (-1) ∧
    ¬ ((runItemOps (listModel.mk 3 0 2 3 0 (-1)) [ItemOp.next, ItemOp.next]).last
        ≤ (runItemOps (listModel.mk 3 0 2 3 0 (-1)) [ItemOp.next, ItemOp.next]).count - 1) := by
  decide

/-- C2 (amended): from every list state with count ≥ 1 that satisfies the
data-model invariants, every finite sequence of `nextItem` / `prevItem` calls
leads to a state with `0 ≤ first` and `last ≤ count`; when the cursor is
disabled the state even has `last ≤ count - 1`. -/
theorem itemOps_window_bound (m : listModel) (ops : List ItemOp)
    (hcount : 1 ≤ m.count) (h0 : 0 ≤ m.first) (hfl : m.first ≤ m.last)
    (hl : m.last < m.count) (hh : m.last - m.first + 1 = m.height)
    (hc : m.cursor = -1 ∨ (m.first ≤ m.cursor ∧ m.cursor ≤ m.last)) :
    0 ≤ (runItemOps m ops).first ∧
      (runItemOps m ops).last ≤ (runItemOps m ops).count ∧
      (m.cursor = -1 → (runItemOps m ops).last ≤ (runItemOps m ops).count - 1) := by
  have hc2 : (m.cursor = -1 ∧ m.last ≤ m.count - 1) ∨ (0 ≤ m.cursor ∧ m.last ≤ m.count) := by
    omega
  obtain ⟨h1, h2, h3⟩ := runItemOps_bound ops m h0 hc2
  refine ⟨h1, by omega, ?_⟩
  intro hm
  have h4 := runItemOps_cursorless ops m hm
  omega

/-- Witness of `itemOps_window_bound`: count 3, height 3, window [0, 2], cursor 0
and `nextItem` twice. -/
theorem itemOps_window_bound_witness :
    0 ≤ (runItemOps (listModel.mk 3 0 2 3 0 (-1)) [ItemOp.next, ItemOp.next]).first ∧
      (runItemOps (listModel.mk 3 0 2 3 0 (-1)) [ItemOp.next, ItemOp.next]).last
        ≤ (runItemOps (listModel.mk 3 0 2 3 0 (-1)) [ItemOp.next, ItemOp.next]).count ∧
      ((listModel.mk 3 0 2 3 0 (-1)).cursor = -1 →
        (runItemOps (listModel.mk 3 0 2 3 0 (-1)) [ItemOp.next, ItemOp.next]).last
          ≤ (runItemOps (listModel.mk 3 0 2 3 0 (-1)) [ItemOp.next, ItemOp.next]).count - 1) :=
  itemOps_window_bound (listModel.mk 3 0 2 3 0 (-1)) [ItemOp.next, ItemOp.next]
    (by decide) (by decide) (by decide) (by decide) (by decide) (by decide)

/-- C3 (the code at the failing input): with one item and a terminal of 10 rows,
`setHeight` moves the window to [1, 1] while the cursor stays on row 0, so the
cursor is above the window; the same happens for a terminal of one row (count 5,
first 3, cursor 3, height 1 gives the window [4, 4]). -/
theorem setHeight_cursor_above_window :
    (listModel.mk 1 0 0 0 0 (-1)).setHeight 10 = listModel.mk 1 1 1 1 0 (-1) ∧
    ¬ (((listModel.mk 1 0 0 0 0 (-1)).setHeight 10).first
        ≤ ((listModel.mk 1 0 0 0 0 (-1)).setHeight 10).cursor) ∧
    (listModel.mk 5 3 3 0 3 (-1)).setHeight 1 = listModel.mk 5 4 4 1 3 (-1) ∧
    ¬ (((listModel.mk 5 3 3 0 3 (-1)).setHeight 1).first
        ≤ ((listModel.mk 5 3 3 0 3 (-1)).setHeight 1).cursor) := by
  decide

/-- `nextPage` keeps the list invariants. -/
theorem nextPage_keeps_invariants (m : listModel)
    (hcount : 1 ≤ m.count) (hh1 : 1 ≤ m.height) (hh2 : m.height ≤ m.count) (h0 : 0 ≤ m.first)
    (hl : m.last = m.first + m.height - 1) (hb : m.last ≤ m.count - 1)
    (hc : m.cursor = -1 ∨ (m.first ≤ m.cursor ∧ m.cursor ≤ m.last)) :
    0 ≤ m.nextPage.first ∧ m.nextPage.first ≤ m.nextPage.last ∧
      m.nextPage.last ≤ m.nextPage.count - 1 ∧
      m.nextPage.last - m.nextPage.first + 1 = m.nextPage.height ∧
      (m.cursor = -1 → m.nextPage.cursor = -1) ∧
      (m.cursor ≠ -1 →
        m.nextPage.first ≤ m.nextPage.cursor ∧ m.nextPage.cursor ≤ m.nextPage.last) := by
  simp only [listModel.nextPage]
  split_ifs <;> (try dsimp only at *) <;> omega

/-- `prevPage` keeps the list invariants unless the cursor is on row `height - 1`,
the one row from which the move by `height` lands on the disabled value -1. -/
theorem prevPage_keeps_invariants (m : listModel)
    (hcount : 1 ≤ m.count) (hh1 : 1 ≤ m.height) (hh2 : m.height ≤ m.count) (h0 : 0 ≤ m.first)
    (hl : m.last = m.first + m.height - 1) (hb : m.last ≤ m.count - 1)
    (hc : m.cursor = -1 ∨ (m.first ≤ m.cursor ∧ m.cursor ≤ m.last))
    (hrow : m.cursor ≠ m.height - 1) :
    0 ≤ m.prevPage.first ∧ m.prevPage.first ≤ m.prevPage.last ∧
      m.prevPage.last ≤ m.prevPage.count - 1 ∧
      m.prevPage.last - m.prevPage.first + 1 = m.prevPage.height ∧
      (m.cursor = -1 → m.prevPage.cursor = -1) ∧
      (m.cursor ≠ -1 →
        m.prevPage.first ≤ m.prevPage.cursor ∧ m.prevPage.cursor ≤ m.prevPage.last) := by
  simp only [listModel.prevPage]
  split_ifs <;> (try dsimp only at *) <;> omega

/-- C4 (the code at the failing input): the state count 100, height 20, window
[1, 20], cursor 19 is reached from a fresh list by `setHeight 20` and `nextItem`
19 times and satisfies the invariants; `prevPage` from it gives the window
[0, 19] and the cursor -1, the disabled value, which is not inside the window. -/
theorem prevPage_disables_cursor :
    runItemOps ((listModel.mk 100 0 0 0 0 (-1)).setHeight 20) (List.replicate 19 ItemOp.next)
      = listModel.mk 100 1 20 20 19 (-1) ∧
    (listModel.mk 100 1 20 20 19 (-1)).prevPage = listModel.mk 100 0 19 20 (-1) (-1) ∧
    ¬ ((listModel.mk 100 1 20 20 19 (-1)).prevPage.first
        ≤ (listModel.mk 100 1 20 20 19 (-1)).prevPage.cursor) := by
  decide

/-! ### What `nextPage` and `prevPage` do to the window -/

namespace listModel

/-- The first row after `nextPage`. -/
theorem nextPage_first (m : listModel) :
    m.nextPage.first = if m.last + m.height ≥ m.count then m.count - 1 - m.height + 1
      else m.first + m.height := by
  simp only [nextPage]
  split_ifs <;> rfl

/-- The last row after `nextPage`. -/
theorem nextPage_last (m : listModel) :
    m.nextPage.last = if m.last + m.height ≥ m.count then m.count - 1 else m.last + m.height := by
  simp only [nextPage]
  split_ifs <;> rfl

/-- `nextPage` keeps the height. -/
theorem nextPage_height (m : listModel) : m.nextPage.height = m.height := by
  simp only [nextPage]
  split_ifs <;> rfl

/-- `nextPage` keeps the count. -/
theorem nextPage_count (m : listModel) : m.nextPage.count = m.count := by
  simp only [nextPage]
  split_ifs <;> rfl

/-- The first row after `prevPage`. -/
theorem prevPage_first (m : listModel) :
    m.prevPage.first = if m.first - m.height < 0 then 0 else m.first - m.height := by
  simp only [prevPage]
  split_ifs <;> rfl

/-- The last row after `prevPage`. -/
theorem prevPage_last (m : listModel) :
    m.prevPage.last = if m.first - m.height < 0 then 0 + m.height - 1 else m.last - m.height := by
  simp only [prevPage]
  split_ifs <;> rfl

/-- `prevPage` keeps the height. -/
theorem prevPage_height (m : listModel) : m.prevPage.height = m.height := by
  simp only [prevPage]
  split_ifs <;> rfl

/-- `prevPage` keeps the count. -/
theorem prevPage_count (m : listModel) : m.prevPage.count = m.count := by
  simp only [prevPage]
  split_ifs <;> rfl
end listModel

/-- C5 (counterexample): count 100, height 20, window [70, 89] is fully inside
bounds; `nextPage` clamps the window to [80, 99] and `prevPage` then gives
[60, 79], not [70, 89]. -/
theorem page_round_trip_counterexample :
    (listModel.mk 100 70 89 20 (-1) (-1)).nextPage = listModel.mk 100 80 99 20 (-1) (-1) ∧
    (listModel.mk 100 70 89 20 (-1) (-1)).nextPage.prevPage
      = listModel.mk 100 60 79 20 (-1) (-1) ∧
    ¬ ((listModel.mk 100 70 89 20 (-1) (-1)).nextPage.prevPage.first
        = (listModel.mk 100 70 89 20 (-1) (-1)).first) := by
  decide

/-- C5 (amended): for every list state whose window is fully inside bounds
(count ≥ 1, height ≥ 1, 0 ≤ first, last = first + height - 1 ≤ count - 1),
`prevPage (nextPage m)` has the same (first, last) as `m` exactly when the shift
of `nextPage` is not clamped (last + height ≤ count - 1) or the window is at the
top with count < 2 * height, and `nextPage (prevPage m)` has the same
(first, last) as `m` exactly when the shift of `prevPage` is not clamped
(height ≤ first) or the window is at the bottom with count < 2 * height. -/
theorem page_round_trip (m : listModel)
    (hcount : 1 ≤ m.count) (hh : 1 ≤ m.height) (h0 : 0 ≤ m.first)
    (hl : m.last = m.first + m.height - 1) (hb : m.last ≤ m.count - 1) :
    ((m.nextPage.prevPage.first = m.first ∧ m.nextPage.prevPage.last = m.last) ↔
      (m.last + m.height ≤ m.count - 1 ∨ (m.first = 0 ∧ m.count < 2 * m.height))) ∧
    ((m.prevPage.nextPage.first = m.first ∧ m.prevPage.nextPage.last = m.last) ↔
      (m.height ≤ m.first ∨ (m.last = m.count - 1 ∧ m.count < 2 * m.height))) := by
  constructor
  · rw [listModel.prevPage_first, listModel.prevPage_last, listModel.nextPage_height,
      listModel.nextPage_first, listModel.nextPage_last]
    split_ifs <;> omega
  · rw [listModel.nextPage_first, listModel.nextPage_last, listModel.prevPage_height,
      listModel.prevPage_count, listModel.prevPage_first, listModel.prevPage_last]
    split_ifs <;> omega

/-- Witness of `page_round_trip`: count 100, height 20, window [20, 39]. -/
theorem page_round_trip_witness :
    (((listModel.mk 100 20 39 20 25 (-1)).nextPage.prevPage.first
          = (listModel.mk 100 20 39 20 25 (-1)).first ∧
        (listModel.mk 100 20 39 20 25 (-1)).nextPage.prevPage.last
          = (listModel.mk 100 20 39 20 25 (-1)).last) ↔
      ((listModel.mk 100 20 39 20 25 (-1)).last + (listModel.mk 100 20 39 20 25 (-1)).height
          ≤ (listModel.mk 100 20 39 20 25 (-1)).count - 1 ∨
        ((listModel.mk 100 20 39 20 25 (-1)).first = 0 ∧
          (listModel.mk 100 20 39 20 25 (-1)).count
            < 2 * (listModel.mk 100 20 39 20 25 (-1)).height))) ∧
    (((listModel.mk 100 20 39 20 25 (-1)).prevPage.nextPage.first
          = (listModel.mk 100 20 39 20 25 (-1)).first ∧
        (listModel.mk 100 20 39 20 25 (-1)).prevPage.nextPage.last
          = (listModel.mk 100 20 39 20 25 (-1)).last) ↔
      ((listModel.mk 100 20 39 20 25 (-1)).height ≤ (listModel.mk 100 20 39 20 25 (-1)).first ∨
        ((listModel.mk 100 20 39 20 25 (-1)).last
            = (listModel.mk 100 20 39 20 25 (-1)).count - 1 ∧
          (listModel.mk 100 20 39 20 25 (-1)).count
            < 2 * (listModel.mk 100 20 39 20 25 (-1)).height))) :=
  page_round_trip (listModel.mk 100 20 39 20 25 (-1))
    (by decide) (by decide) (by decide) (by decide) (by decide)

/-- C8 (counterexample): count 100, height 20, window [0, 19], cursor 18 has
first ≤ cursor < last and cursor < count - 1, and `nextItem` slides the window
to [1, 20]. -/
theorem nextItem_slides_early_counterexample :
    ((listModel.mk 100 0 19 20 18 (-1)).first ≤ (listModel.mk 100 0 19 20 18 (-1)).cursor ∧
      (listModel.mk 100 0 19 20 18 (-1)).cursor < (listModel.mk 100 0 19 20 18 (-1)).last ∧
      (listModel.mk 100 0 19 20 18 (-1)).cursor
        < (listModel.mk 100 0 19 20 18 (-1)).count - 1) ∧
    (listModel.mk 100 0 19 20 18 (-1)).nextItem = listModel.mk 100 1 20 20 19 (-1) ∧
    ¬ ((listModel.mk 100 0 19 20 18 (-1)).nextItem.first
        = (listModel.mk 100 0 19 20 18 (-1)).first) := by
  decide

/-- C8 (amended): with the cursor enabled, for every state with
first ≤ cursor < last - 1 and cursor < count - 1, `nextItem` leaves first and
last unchanged, and for every state with first < cursor ≤ last, `prevItem`
leaves first and last unchanged. -/
theorem item_moves_keep_window (m : listModel) (hen : m.cursor ≠ -1) :
    (m.first ≤ m.cursor → m.cursor < m.last - 1 → m.cursor < m.count - 1 →
      m.nextItem.first = m.first ∧ m.nextItem.last = m.last) ∧
    (m.first < m.cursor → m.cursor ≤ m.last →
      m.prevItem.first = m.first ∧ m.prevItem.last = m.last) := by
  constructor
  · intro h1 h2 h3
    simp only [listModel.nextItem]
    split_ifs <;> (try dsimp only) <;> omega
  · intro h1 h2
    simp only [listModel.prevItem]
    split_ifs <;> (try dsimp only) <;> omega

/-- Witness of `item_moves_keep_window`: count 100, height 20, window [0, 19],
cursor 17. -/
theorem item_moves_keep_window_witness :
    ((listModel.mk 100 0 19 20 17 (-1)).cursor ≠ -1 ∧
      (listModel.mk 100 0 19 20 17 (-1)).first ≤ (listModel.mk 100 0 19 20 17 (-1)).cursor ∧
      (listModel.mk 100 0 19 20 17 (-1)).cursor < (listModel.mk 100 0 19 20 17 (-1)).last - 1 ∧
      (listModel.mk 100 0 19 20 17 (-1)).cursor < (listModel.mk 100 0 19 20 17 (-1)).count - 1 ∧
      (listModel.mk 100 0 19 20 17 (-1)).first < (listModel.mk 100 0 19 20 17 (-1)).cursor ∧
      (listModel.mk 100 0 19 20 17 (-1)).cursor ≤ (listModel.mk 100 0 19 20 17 (-1)).last) ∧
    ((listModel.mk 100 0 19 20 17 (-1)).nextItem.first = 0 ∧
      (listModel.mk 100 0 19 20 17 (-1)).nextItem.last = 19) ∧
    ((listModel.mk 100 0 19 20 17 (-1)).prevItem.first = 0 ∧
      (listModel.mk 100 0 19 20 17 (-1)).prevItem.last = 19) :=
  ⟨by decide,
    (item_moves_keep_window (listModel.mk 100 0 19 20 17 (-1)) (by decide)).1
      (by decide) (by decide) (by decide),
    (item_moves_keep_window (listModel.mk 100 0 19 20 17 (-1)) (by decide)).2
      (by decide) (by decide)⟩

/-- C9 (counterexample): count 100, first 0, cursor 30 and h = 20 satisfy the
hypotheses, and `setHeight 20` returns the window [12, 31], not [11, 30]. -/
theorem setHeight_out_of_window_counterexample :
    ((listModel.mk 100 0 0 0 30 (-1)).cursor ≠ -1 ∧
      0 ≤ (listModel.mk 100 0 0 0 30 (-1)).first ∧
      0 ≤ (listModel.mk 100 0 0 0 30 (-1)).cursor ∧
      (listModel.mk 100 0 0 0 30 (-1)).cursor < (listModel.mk 100 0 0 0 30 (-1)).count ∧
      (1 : Int) ≤ 20 ∧
      (listModel.mk 100 0 0 0 30 (-1)).cursor
        > (listModel.mk 100 0 0 0 30 (-1)).first
          + min 20 (listModel.mk 100 0 0 0 30 (-1)).count - 1) ∧
    (listModel.mk 100 0 0 0 30 (-1)).setHeight 20 = listModel.mk 100 12 31 20 30 (-1) ∧
    ¬ (((listModel.mk 100 0 0 0 30 (-1)).setHeight 20).last
        = (listModel.mk 100 0 0 0 30 (-1)).cursor) := by
  decide

/-- C9 (amended): for every cursor-enabled state with 0 ≤ first, 0 ≤ cursor < count
and every height h ≥ 1 with cursor > first + min(h, count) - 1, the state returned
by `setHeight h` has last = cursor + 1 and first = cursor - min(h, count) + 2, so
the cursor is the row just before `last`. -/
theorem setHeight_out_of_window (m : listModel) (ht : Int)
    (hen : m.cursor ≠ -1) (h0 : 0 ≤ m.first) (hc0 : 0 ≤ m.cursor) (hc1 : m.cursor < m.count)
    (hh : 1 ≤ ht) (hout : m.cursor > m.first + min ht m.count - 1) :
    (m.setHeight ht).last = m.cursor + 1 ∧
      (m.setHeight ht).first = m.cursor - min ht m.count + 2 := by
  simp only [listModel.setHeight]
  split_ifs <;> (try dsimp only at *) <;> omega

/-- Witness of `setHeight_out_of_window`: count 100, first 0, cursor 30, h = 20. -/
theorem setHeight_out_of_window_witness :
    ((listModel.mk 100 0 0 0 30 (-1)).setHeight 20).last
        = (listModel.mk 100 0 0 0 30 (-1)).cursor + 1 ∧
      ((listModel.mk 100 0 0 0 30 (-1)).setHeight 20).first
        = (listModel.mk 100 0 0 0 30 (-1)).cursor
          - min 20 (listModel.mk 100 0 0 0 30 (-1)).count + 2 :=
  setHeight_out_of_window (listModel.mk 100 0 0 0 30 (-1)) 20
    (by decide) (by decide) (by decide) (by decide) (by decide) (by decide)

/-- C10 (the code at the failing input): the list built when the Stats screen is
entered with one entry, `listModel{count: 1, marked: -1}`, after `setHeight 10`
has the window [1, 1] instead of [0, 0]; with three entries the window is [0, 2]
and the cursor 0, as in the scenario of the spec. -/
theorem setHeight_fresh_single_item :
    ({ count := 1, first := 0, last := 0, height := 0, cursor := 0, marked := -1 }
        : listModel).setHeight 10
      = { count := 1, first := 1, last := 1, height := 1, cursor := 0, marked := -1 } ∧
    ({ count := 3, first := 0, last := 0, height := 0, cursor := 0, marked := -1 }
        : listModel).setHeight 10
      = { count := 3, first := 0, last := 2, height := 3, cursor := 0, marked := -1 } := by
  decide

/-! ## The commit range selector of main.go -/

/-- Indexing inside the bounds of a slice returns an element. -/
theorem goIndex_of_lt {α : Type} (xs : List α) (i : Int) (h0 : 0 ≤ i)
    (h1 : i < (xs.length : Int)) : ∃ x, goIndex xs i = some x := by
  have hlt : i.toNat < xs.length := by omega
  refine ⟨xs[i.toNat], ?_⟩
  unfold goIndex
  rw [if_neg (by omega)]
  exact List.getElem?_eq_getElem hlt

/-- C1: for every non-empty commit list, every cursor in [0, len) and every marked
in -1 or [0, len), `getCommitRange` returns a value and equals its reference
definition: without a mark it is `(commits[cursor].Commit, "")`; with a mark,
`start` is the commit at index max(cursor, marked) and `end` the commit at index
min(cursor, marked), the index of `start` is at least the index of `end`, and
exchanging cursor and marked returns the same pair. -/
theorem getCommitRange_eq_spec (m : MainGo.appModel)
    (hne : m.commits ≠ [])
    (hc0 : 0 ≤ m.commitsList.cursor) (hc1 : m.commitsList.cursor < (m.commits.length : Int))
    (hm : m.commitsList.marked = -1 ∨
      (0 ≤ m.commitsList.marked ∧ m.commitsList.marked < (m.commits.length : Int))) :
    m.getCommitRange
        = MainGo.appModel.getCommitRangeSpec m.commits m.commitsList.cursor m.commitsList.marked ∧
    (m.commitsList.marked = -1 →
      ∃ c, goIndex m.commits m.commitsList.cursor = some c ∧
        m.getCommitRange = some (c.Commit, "")) ∧
    (0 ≤ m.commitsList.marked →
      ∃ i j s e, i = max m.commitsList.cursor m.commitsList.marked ∧
        j = min m.commitsList.cursor m.commitsList.marked ∧ j ≤ i ∧
        goIndex m.commits i = some s ∧ goIndex m.commits j = some e ∧
        m.getCommitRange = some (s.Commit, e.Commit) ∧
        MainGo.appModel.getCommitRange
            { m with commitsList :=
              { m.commitsList with cursor := m.commitsList.marked,
                                   marked := m.commitsList.cursor } }
          = some (s.Commit, e.Commit)) := by
  obtain ⟨c, hc⟩ := goIndex_of_lt m.commits m.commitsList.cursor hc0 hc1
  rcases hm with hm | ⟨hm0, hm1⟩
  · refine ⟨?_, ?_, ?_⟩
    · simp [MainGo.appModel.getCommitRange, MainGo.appModel.getCommitRangeSpec, hc, hm]
    · intro _
      exact ⟨c, hc, by simp [MainGo.appModel.getCommitRange, hc, hm]⟩
    · intro h
      omega
  · obtain ⟨d, hd⟩ := goIndex_of_lt m.commits m.commitsList.marked hm0 hm1
    have hne1 : m.commitsList.marked ≠ -1 := by omega
    rcases lt_or_le m.commitsList.cursor m.commitsList.marked with hlt | hle
    · have hmax : max m.commitsList.cursor m.commitsList.marked = m.commitsList.marked :=
        max_eq_right (le_of_lt hlt)
      have hmin : min m.commitsList.cursor m.commitsList.marked = m.commitsList.cursor :=
        min_eq_left (le_of_lt hlt)
      have hnot : ¬ (m.commitsList.cursor > m.commitsList.marked) := by omega
      refine ⟨?_, ?_, ?_⟩
      · simp [MainGo.appModel.getCommitRange, MainGo.appModel.getCommitRangeSpec, hc, hd,
          hne1, hm0, hlt, hmax, hmin]
      · intro h
        omega
      · intro _
        refine ⟨_, _, d, c, rfl, rfl, by omega, ?_, ?_, ?_, ?_⟩
        · rw [hmax]; exact hd
        · rw [hmin]; exact hc
        · simp [MainGo.appModel.getCommitRange, hc, hd, hm0, hlt]
        · simp [MainGo.appModel.getCommitRange, hc, hd, hc0, hnot]
    · have hmax : max m.commitsList.cursor m.commitsList.marked = m.commitsList.cursor :=
        max_eq_left hle
      have hmin : min m.commitsList.cursor m.commitsList.marked = m.commitsList.marked :=
        min_eq_right hle
      have hnot : ¬ (m.commitsList.marked > m.commitsList.cursor) := by omega
      refine ⟨?_, ?_, ?_⟩
      · simp [MainGo.appModel.getCommitRange, MainGo.appModel.getCommitRangeSpec, hc, hd,
          hne1, hm0, hnot, hmax, hmin]
      · intro h
        omega
      · intro _
        refine ⟨_, _, c, d, rfl, rfl, by omega, ?_, ?_, ?_, ?_⟩
        · rw [hmax]; exact hc
        · rw [hmin]; exact hd
        · simp [MainGo.appModel.getCommitRange, hc, hd, hm0, hnot]
        · rcases lt_or_eq_of_le hle with hlt | heq
          · simp [MainGo.appModel.getCommitRange, hc, hd, hc0, hlt]
          · have hcd : c = d := by
              rw [heq] at hd
              rw [hd] at hc
              exact (Option.some.inj hc).symm
            simp [MainGo.appModel.getCommitRange, hc, hd, hc0, heq, hcd]

/-- Witness of `getCommitRange_eq_spec`: three commits, cursor on row 0, mark on
row 2; the range runs from the oldest commit to the most recent one. -/
theorem getCommitRange_eq_spec_witness :
    MainGo.exampleModel.getCommitRange
        = MainGo.appModel.getCommitRangeSpec MainGo.exampleModel.commits
            MainGo.exampleModel.commitsList.cursor MainGo.exampleModel.commitsList.marked ∧
      MainGo.exampleModel.getCommitRange = some ("aaaaaaaaaa", "cccccccccc") :=
  ⟨(getCommitRange_eq_spec MainGo.exampleModel (by decide) (by decide) (by decide)
      (by decide)).1, by decide⟩

/-! ## Live refresh in diff.go -/

/-- C6 (the code at every input): `setDiff c s` queries git with the range `c`, but
a following `refresh` queries git with the range stored in `m.commits` before the
call, which `setDiff` does not update; the two calls have the same arguments
exactly when `m.commits` already was `c`.  `refresh` installs the result of its
own query as the diff.  In particular, from a model whose stored range is the
zero value, `setDiff` with the range ("abc", "def") is followed by a refresh
query for the range ("", ""). -/
theorem refresh_after_setDiff_range {Opts : Type}
    (gitDiff : DiffGo.gitDiffCall Opts → List String)
    (init : listModel → Int → Bool → listModel) (setCount : listModel → Int → listModel)
    (m : DiffGo.diffModel Opts) (c : DiffGo.commitRange) (s : stat) :
    (DiffGo.setDiff gitDiff init m c s).2 = ⟨c.start, c.end_, s.Path, s.OldPath, m.opts⟩ ∧
    (DiffGo.refresh gitDiff setCount (DiffGo.setDiff gitDiff init m c s).1).2
      = ⟨m.commits.start, m.commits.end_, s.Path, s.OldPath, m.opts⟩ ∧
    (DiffGo.refresh gitDiff setCount (DiffGo.setDiff gitDiff init m c s).1).1.diff
      = gitDiff ⟨m.commits.start, m.commits.end_, s.Path, s.OldPath, m.opts⟩ ∧
    ((DiffGo.refresh gitDiff setCount (DiffGo.setDiff gitDiff init m c s).1).2
        = (DiffGo.setDiff gitDiff init m c s).2 ↔ m.commits = c) ∧
    (DiffGo.refresh gitDiff setCount
        (DiffGo.setDiff gitDiff init { m with commits := ⟨"", ""⟩ } ⟨"abc", "def"⟩ s).1).2.start
      = "" := by
  refine ⟨rfl, rfl, rfl, ?_, rfl⟩
  simp only [DiffGo.setDiff, DiffGo.refresh]
  constructor
  · intro h
    injection h with h1 h2
    cases hm : m.commits
    cases c
    rw [hm] at h1 h2
    simp only at h1 h2
    rw [h1, h2]
  · intro h
    rw [h]

/-! ## The event loop of main.go -/

namespace MainGo

/-- The current view is the last entry of the view stack. -/
theorem currentView_snoc (m : appModel) (hs : List view) (v : view)
    (h : m.history = hs ++ [v]) : m.currentView = some v := by
  unfold appModel.currentView goIndex
  rw [h]
  have h1 : ¬ (((hs ++ [v]).length : Int) - 1 < 0) := by
    simp only [List.length_append, List.length_singleton]
    omega
  rw [if_neg h1]
  have h2 : (((hs ++ [v]).length : Int) - 1).toNat = hs.length := by
    simp only [List.length_append, List.length_singleton]
    omega
  rw [h2]
  simp

/-- The tail of `Update` changes the status text only and returns no command. -/
theorem withStatus_history (m : appModel) (r : appModel × Cmd)
    (h : m.withStatus = some r) :
    r.1.history = m.history ∧ r.1.stats = m.stats ∧ r.2 = Cmd.none := by
  unfold appModel.withStatus at h
  cases hs : m.getStatus with
  | none => rw [hs] at h; simp at h
  | some s =>
    rw [hs] at h
    simp only [Option.some.injEq] at h
    subst h
    exact ⟨rfl, rfl, rfl⟩

/-- The key enter on the root Commits screen, when it does not panic, pushes the Stats screen
and installs the result of the stat query. -/
theorem enter_commits_history (ops : ListOps) (git : Git) (m m1 : appModel)
    (hh : m.history = [commitsView]) (h : m.enter ops git = some m1) :
    m1.history = [commitsView, statsView] ∧
      ∃ a b, m1.stats = git.gitDiffStat a b := by
  have hv : m.currentView = some commitsView := currentView_snoc m [] commitsView (by simpa using hh)
  unfold appModel.enter at h
  rw [hv] at h
  simp only [if_true] at h
  cases hr : m.getCommitRange with
  | none => rw [hr] at h; simp at h
  | some r =>
    obtain ⟨a, b⟩ := r
    rw [hr] at h
    simp only [Option.some.injEq] at h
    subst h
    refine ⟨?_, a, b, rfl⟩
    simp [appModel.pushView, hh]

/-- The key enter on a Stats screen with zero rows panics: `m.stats[m.statsList.cursor]` is out
of range for every cursor. -/
theorem enter_stats_empty (ops : ListOps) (git : Git) (m : appModel)
    (hh : m.history = [commitsView, statsView]) (hs : m.stats = []) :
    m.enter ops git = none := by
  have hv : m.currentView = some statsView :=
    currentView_snoc m [commitsView] statsView (by simpa using hh)
  have hne : ¬ (statsView = commitsView) := by decide
  have hidx : goIndex m.stats m.statsList.cursor = none := by
    rw [hs]
    unfold goIndex
    split_ifs <;> simp
  unfold appModel.enter
  rw [hv]
  simp only [if_neg hne, if_true]
  cases hr : m.getCommitRange with
  | none => rfl
  | some r =>
    obtain ⟨a, b⟩ := r
    simp [hidx]

/-- C7 (the code at the failing input): whatever the list methods and the diff
query are and whatever the commit list is, when the stat query returns zero
entries the two key presses enter, enter from the initial state end in a Go
run-time panic: the second enter is handled on the empty Stats screen and
evaluates `m.stats[m.statsList.cursor]` on an empty slice (or an index was
already out of range before).  The second part is that step alone: on the Stats
screen with zero rows over three commits, enter panics. -/
theorem enter_on_empty_stats_panics (ops : ListOps)
    (gitDiff : String → String → String → String → List String) (commits : List commit) :
    run ops ⟨fun _ _ => [], gitDiff⟩ (initialModel ops commits)
      [Msg.KeyMsg "enter", Msg.KeyMsg "enter"] = none ∧
    appModel.Update ops ⟨fun _ _ => [], gitDiff⟩ exampleEmptyStats (Msg.KeyMsg "enter")
      = none := by
  refine ⟨?_, ?_⟩
  swap
  · have hU : appModel.Update ops ⟨fun _ _ => [], gitDiff⟩ exampleEmptyStats
        (Msg.KeyMsg "enter")
        = (exampleEmptyStats.enter ops ⟨fun _ _ => [], gitDiff⟩).bind appModel.withStatus := by
      simp [appModel.Update]
    rw [hU, enter_stats_empty ops _ exampleEmptyStats rfl rfl]
    rfl
  have hU : ∀ m : appModel, m.Update ops ⟨fun _ _ => [], gitDiff⟩ (Msg.KeyMsg "enter")
      = (m.enter ops ⟨fun _ _ => [], gitDiff⟩).bind appModel.withStatus := by
    intro m
    simp [appModel.Update]
  unfold run
  rw [hU]
  cases h1 : (initialModel ops commits).enter ops ⟨fun _ _ => [], gitDiff⟩ with
  | none => rfl
  | some m1 =>
    obtain ⟨hh1, a, b, hs1⟩ := enter_commits_history ops _ _ m1 rfl h1
    rw [Option.some_bind]
    cases h2 : m1.withStatus with
    | none => rfl
    | some r =>
      obtain ⟨m2, c⟩ := r
      obtain ⟨hh2, hs2, hc⟩ := withStatus_history m1 (m2, c) h2
      simp only at hh2 hs2 hc
      subst hc
      simp only
      unfold run
      rw [hU, enter_stats_empty ops _ m2 (by rw [hh2, hh1]) (by rw [hs2, hs1])]
      rfl

end MainGo

/-! ## The list model: empty lists, window size, cursor range and drawing -/

/-- C11 (the code at the failing input): a freshly created list with count 0 after
`setHeight` has neither first = 0 nor last = 0.  With the cursor enabled
(cursor 0) the window becomes first 2, last 1; with the cursor disabled
(cursor -1) it becomes first 1, last 0, for the heights 10 and 0 alike. -/
theorem setHeight_empty_list_window :
    ({ count := 0, first := 0, last := 0, height := 0, cursor := 0, marked := -1 }
        : listModel).setHeight 10
      = { count := 0, first := 2, last := 1, height := 0, cursor := 0, marked := -1 } ∧
    ({ count := 0, first := 0, last := 0, height := 0, cursor := -1, marked := -1 }
        : listModel).setHeight 10
      = { count := 0, first := 1, last := 0, height := 0, cursor := -1, marked := -1 } ∧
    ({ count := 0, first := 0, last := 0, height := 0, cursor := 0, marked := -1 }
        : listModel).setHeight 0
      = { count := 0, first := 2, last := 1, height := 0, cursor := 0, marked := -1 } ∧
    ({ count := 0, first := 0, last := 0, height := 0, cursor := -1, marked := -1 }
        : listModel).setHeight 0
      = { count := 0, first := 1, last := 0, height := 0, cursor := -1, marked := -1 } := by
  decide

/-- C17: for every list state and every height h (in particular for count ≥ 0 and
h ≥ 0), the state returned by `setHeight h` has last - first + 1 = min(h, count)
and its stored height equals min(h, count). -/
theorem setHeight_window_size (m : listModel) (ht : Int) :
    (m.setHeight ht).last - (m.setHeight ht).first + 1 = min ht m.count ∧
      (m.setHeight ht).height = min ht m.count := by
  simp only [listModel.setHeight]
  split_ifs <;> (try dsimp only at *) <;> omega

/-- One single-row move keeps an enabled cursor inside [0, count - 1] and keeps the
count. -/
theorem itemOp_apply_cursor (op : ItemOp) (m : listModel)
    (hc0 : 0 ≤ m.cursor) (hc1 : m.cursor ≤ m.count - 1) :
    0 ≤ (op.apply m).cursor ∧ (op.apply m).cursor ≤ m.count - 1 ∧
      (op.apply m).count = m.count := by
  cases op
  · simp only [ItemOp.apply, listModel.nextItem]
    split_ifs <;> (try dsimp only at *) <;> omega
  · simp only [ItemOp.apply, listModel.prevItem]
    split_ifs <;> (try dsimp only at *) <;> omega

/-- A sequence of single-row moves keeps an enabled cursor inside [0, count - 1]. -/
theorem runItemOps_cursor (ops : List ItemOp) (m : listModel)
    (hc0 : 0 ≤ m.cursor) (hc1 : m.cursor ≤ m.count - 1) :
    0 ≤ (runItemOps m ops).cursor ∧ (runItemOps m ops).cursor ≤ m.count - 1 ∧
      (runItemOps m ops).count = m.count := by
  induction ops generalizing m with
  | nil => exact ⟨hc0, hc1, rfl⟩
  | cons op rest ih =>
    obtain ⟨h1, h2, h3⟩ := itemOp_apply_cursor op m hc0 hc1
    have h := ih (op.apply m) h1 (by rw [h3]; exact h2)
    rw [h3] at h
    exact h

/-- C18: for every cursor-enabled list state with count ≥ 1 and
0 ≤ cursor ≤ count - 1 and every finite sequence of `nextItem` / `prevItem` calls,
the cursor of the state reached is in [0, count - 1] (so it is not the disabled
value -1) and the count is unchanged; `nextItem` at cursor = count - 1 and
`prevItem` at cursor = 0 leave the cursor unchanged. -/
theorem itemOps_cursor_range (m : listModel) (ops : List ItemOp)
    (hcount : 1 ≤ m.count) (hc0 : 0 ≤ m.cursor) (hc1 : m.cursor ≤ m.count - 1) :
    (0 ≤ (runItemOps m ops).cursor ∧
      (runItemOps m ops).cursor ≤ (runItemOps m ops).count - 1 ∧
      (runItemOps m ops).cursor ≠ -1 ∧
      (runItemOps m ops).count = m.count) ∧
    (m.cursor = m.count - 1 → m.nextItem.cursor = m.cursor) ∧
    (m.cursor = 0 → m.prevItem.cursor = m.cursor) := by
  obtain ⟨h1, h2, h3⟩ := runItemOps_cursor ops m hc0 hc1
  refine ⟨⟨h1, by omega, by omega, h3⟩, ?_, ?_⟩
  · intro h
    simp only [listModel.nextItem]
    split_ifs <;> (try dsimp only at *) <;> omega
  · intro h
    simp only [listModel.prevItem]
    split_ifs <;> (try dsimp only at *) <;> omega

/-- Witness of `itemOps_cursor_range`: count 3, window [0, 2], cursor 2 (the last
row), moved by next, next, prev, prev, prev. -/
theorem itemOps_cursor_range_witness :
    (0 ≤ (runItemOps (listModel.mk 3 0 2 3 2 (-1))
            [ItemOp.next, ItemOp.next, ItemOp.prev, ItemOp.prev, ItemOp.prev]).cursor ∧
      (runItemOps (listModel.mk 3 0 2 3 2 (-1))
            [ItemOp.next, ItemOp.next, ItemOp.prev, ItemOp.prev, ItemOp.prev]).cursor
        ≤ (runItemOps (listModel.mk 3 0 2 3 2 (-1))
            [ItemOp.next, ItemOp.next, ItemOp.prev, ItemOp.prev, ItemOp.prev]).count - 1 ∧
      (runItemOps (listModel.mk 3 0 2 3 2 (-1))
            [ItemOp.next, ItemOp.next, ItemOp.prev, ItemOp.prev, ItemOp.prev]).cursor ≠ -1 ∧
      (runItemOps (listModel.mk 3 0 2 3 2 (-1))
            [ItemOp.next, ItemOp.next, ItemOp.prev, ItemOp.prev, ItemOp.prev]).count
        = (listModel.mk 3 0 2 3 2 (-1)).count) ∧
    ((listModel.mk 3 0 2 3 2 (-1)).cursor = (listModel.mk 3 0 2 3 2 (-1)).count - 1 →
      (listModel.mk 3 0 2 3 2 (-1)).nextItem.cursor = (listModel.mk 3 0 2 3 2 (-1)).cursor) ∧
    ((listModel.mk 3 0 2 3 2 (-1)).cursor = 0 →
      (listModel.mk 3 0 2 3 2 (-1)).prevItem.cursor = (listModel.mk 3 0 2 3 2 (-1)).cursor) :=
  itemOps_cursor_range (listModel.mk 3 0 2 3 2 (-1))
    [ItemOp.next, ItemOp.next, ItemOp.prev, ItemOp.prev, ItemOp.prev]
    (by decide) (by decide) (by decide)

/-- C19: for every cursor-enabled list state with cursor = last and
cursor < count - 1, `nextItem` returns the state with cursor + 1, first + 1 and
last + 1 and all other fields unchanged. -/
theorem nextItem_from_last_row (m : listModel)
    (hen : m.cursor ≠ -1) (hlast : m.cursor = m.last) (hlt : m.cursor < m.count - 1) :
    m.nextItem = { m with cursor := m.cursor + 1, first := m.first + 1, last := m.last + 1 } := by
  have h1 : m.cursor + 1 > m.last - 1 := by omega
  simp only [listModel.nextItem]
  rw [if_neg hen, if_pos hlt, if_pos h1]

/-- Witness of `nextItem_from_last_row`: count 100, height 20, window [0, 19],
cursor 19 becomes cursor 20 with the window [1, 20]. -/
theorem nextItem_from_last_row_witness :
    (listModel.mk 100 0 19 20 19 (-1)).nextItem = listModel.mk 100 1 20 20 20 (-1) :=
  nextItem_from_last_row (listModel.mk 100 0 19 20 19 (-1)) (by decide) (by decide) (by decide)

/-- C20 (the code at the failing input): from a fresh list of 100 items after
`setHeight 20`, `nextPage` five times ends with the window [80, 99] and the cursor
on row 99 = last, which is not among the rows first .. last - 1 that `View`
iterates over; the first four pages keep the cursor on the first row drawn. -/
theorem nextPage_cursor_not_drawn :
    ((listModel.mk 100 0 0 0 0 (-1)).setHeight 20).nextPage.nextPage.nextPage.nextPage
      = listModel.mk 100 80 99 20 80 (-1) ∧
    ((listModel.mk 100 0 0 0 0 (-1)).setHeight 20).nextPage.nextPage.nextPage.nextPage.nextPage
      = listModel.mk 100 80 99 20 99 (-1) ∧
    ¬ (((listModel.mk 100 0 0 0 0
          (-1)).setHeight 20).nextPage.nextPage.nextPage.nextPage.nextPage.cursor
        < ((listModel.mk 100 0 0 0 0
          (-1)).setHeight 20).nextPage.nextPage.nextPage.nextPage.nextPage.last) := by
  decide

/-! ## The event loop of main.go: view stack, routing and live refresh -/

namespace MainGo

/-- The tail of `Update`, when it returns, returns the model with the new status text
and no command. -/
theorem withStatus_some (m : appModel) (r : appModel × Cmd) (h : m.withStatus = some r) :
    ∃ s, m.getStatus = some s ∧ r = ({ m with status := s }, Cmd.none) := by
  unfold appModel.withStatus at h
  cases hs : m.getStatus with
  | none => rw [hs] at h; simp at h
  | some s =>
    rw [hs] at h
    simp only [Option.some.injEq] at h
    exact ⟨s, rfl, h.symm⟩

/-- A sub-step followed by the tail of `Update`: both returned. -/
theorem bind_withStatus_some (o : Option appModel) (r : appModel × Cmd)
    (h : o.bind appModel.withStatus = some r) :
    ∃ m1 s, o = some m1 ∧ m1.getStatus = some s ∧ r = ({ m1 with status := s }, Cmd.none) := by
  cases o with
  | none => simp at h
  | some m1 =>
    rw [Option.some_bind] at h
    obtain ⟨s, hs, hr⟩ := withStatus_some m1 r h
    exact ⟨m1, s, rfl, hs, hr⟩

/-- Every result of `Update` is either the unchanged model with `tea.Quit`, or the
result of one sub-step (list method on the top screen, mark toggle, enter, pop,
file change, nothing, watcher ready) followed by the status refresh. -/
theorem Update_cases (ops : ListOps) (git : Git) (m : appModel) (msg : Msg)
    (r : appModel × Cmd) (h : m.Update ops git msg = some r) :
    r = (m, Cmd.Quit) ∨
    ∃ m1 s, m1.getStatus = some s ∧ r = ({ m1 with status := s }, Cmd.none) ∧
      ((∃ w ht f, appModel.onCurrentList { m with width := w, height := ht } f = some m1) ∨
        m.toggleMark = some m1 ∨ m.enter ops git = some m1 ∨
        ((m.history.length : Int) ≠ 1 ∧ m.popView = some m1) ∨
        (∃ w, m.filechange ops git w = some m1) ∨
        m1 = m ∨ m1 = { m with watcherReady := true }) := by
  cases msg with
  | WindowSizeMsg w ht =>
    simp only [appModel.Update] at h
    obtain ⟨m1, s, h1, hs, hr⟩ := bind_withStatus_some _ r h
    exact Or.inr ⟨m1, s, hs, hr, Or.inl ⟨w, ht, _, h1⟩⟩
  | KeyMsg k =>
    simp only [appModel.Update] at h
    split_ifs at h
    · left; exact (Option.some.inj h).symm
    · obtain ⟨m1, s, h1, hs, hr⟩ := bind_withStatus_some _ r h
      exact Or.inr ⟨m1, s, hs, hr, Or.inr (Or.inl h1)⟩
    · obtain ⟨m1, s, h1, hs, hr⟩ := bind_withStatus_some _ r h
      exact Or.inr ⟨m1, s, hs, hr, Or.inl ⟨m.width, m.height, _, h1⟩⟩
    · obtain ⟨m1, s, h1, hs, hr⟩ := bind_withStatus_some _ r h
      exact Or.inr ⟨m1, s, hs, hr, Or.inl ⟨m.width, m.height, _, h1⟩⟩
    · obtain ⟨m1, s, h1, hs, hr⟩ := bind_withStatus_some _ r h
      exact Or.inr ⟨m1, s, hs, hr, Or.inl ⟨m.width, m.height, _, h1⟩⟩
    · obtain ⟨m1, s, h1, hs, hr⟩ := bind_withStatus_some _ r h
      exact Or.inr ⟨m1, s, hs, hr, Or.inl ⟨m.width, m.height, _, h1⟩⟩
    · obtain ⟨m1, s, h1, hs, hr⟩ := bind_withStatus_some _ r h
      exact Or.inr ⟨m1, s, hs, hr, Or.inr (Or.inr (Or.inl h1))⟩
    · left; exact (Option.some.inj h).symm
    · obtain ⟨m1, s, h1, hs, hr⟩ := bind_withStatus_some _ r h
      rename_i hlen
      exact Or.inr ⟨m1, s, hs, hr, Or.inr (Or.inr (Or.inr (Or.inl ⟨hlen, h1⟩)))⟩
    · obtain ⟨s, hs, hr⟩ := withStatus_some m r h
      exact Or.inr ⟨m, s, hs, hr, Or.inr (Or.inr (Or.inr (Or.inr (Or.inr (Or.inl rfl)))))⟩
  | watcher w =>
    simp only [appModel.Update] at h
    split_ifs at h
    · obtain ⟨s, hs, hr⟩ := withStatus_some _ r h
      exact Or.inr ⟨_, s, hs, hr, Or.inr (Or.inr (Or.inr (Or.inr (Or.inr (Or.inr rfl)))))⟩
    · obtain ⟨m1, s, h1, hs, hr⟩ := bind_withStatus_some _ r h
      exact Or.inr ⟨m1, s, hs, hr, Or.inr (Or.inr (Or.inr (Or.inr (Or.inl ⟨w, h1⟩))))⟩
    · obtain ⟨s, hs, hr⟩ := withStatus_some m r h
      exact Or.inr ⟨m, s, hs, hr, Or.inr (Or.inr (Or.inr (Or.inr (Or.inr (Or.inl rfl)))))⟩
  | other =>
    simp only [appModel.Update] at h
    obtain ⟨s, hs, hr⟩ := withStatus_some m r h
    exact Or.inr ⟨m, s, hs, hr, Or.inr (Or.inr (Or.inr (Or.inr (Or.inr (Or.inl rfl)))))⟩

/-- The current view depends on the view stack only. -/
theorem currentView_congr (m m1 : appModel) (h : m1.history = m.history) :
    m1.currentView = m.currentView := by
  unfold appModel.currentView
  rw [h]

/-- The commit range depends on the commit list and the Commits list model only. -/
theorem getCommitRange_congr (m m1 : appModel) (h1 : m1.commits = m.commits)
    (h2 : m1.commitsList = m.commitsList) : m1.getCommitRange = m.getCommitRange := by
  unfold appModel.getCommitRange
  rw [h1, h2]

/-- What the dispatch to the list of the top screen leaves unchanged. -/
theorem onCurrentList_frame (m m1 : appModel) (f : listModel → listModel)
    (h : m.onCurrentList f = some m1) :
    m1.history = m.history ∧ m1.commits = m.commits ∧ m1.stats = m.stats ∧ m1.diff = m.diff ∧
      m1.watcherReady = m.watcherReady ∧ m1.diffModel.path = m.diffModel.path ∧
      m1.diffModel.oldPath = m.diffModel.oldPath ∧
      (m.currentView ≠ some commitsView → m1.commitsList = m.commitsList) ∧
      (m.currentView ≠ some statsView → m1.statsList = m.statsList) ∧
      (m.currentView ≠ some diffView → m1.diffModel = m.diffModel) := by
  unfold appModel.onCurrentList at h
  cases hv : m.currentView with
  | none => rw [hv] at h; simp at h
  | some v =>
    rw [hv] at h
    simp only at h
    split_ifs at h with h1 h2 h3 <;>
      (simp only [Option.some.injEq] at h; subst h; simp_all)

/-- What the mark toggle leaves unchanged. -/
theorem toggleMark_frame (m m1 : appModel) (h : m.toggleMark = some m1) :
    m1.history = m.history ∧ m1.commits = m.commits ∧ m1.stats = m.stats ∧ m1.diff = m.diff ∧
      m1.watcherReady = m.watcherReady ∧ m1.statsList = m.statsList ∧
      m1.diffModel = m.diffModel ∧
      m1.commitsList = { m.commitsList with marked := m1.commitsList.marked } ∧
      (m.currentView ≠ some commitsView → m1.commitsList = m.commitsList) := by
  unfold appModel.toggleMark at h
  cases hv : m.currentView with
  | none => rw [hv] at h; simp at h
  | some v =>
    rw [hv] at h
    simp only at h
    split_ifs at h with h1 h2 <;>
      (simp only [Option.some.injEq] at h; subst h; simp_all)

/-- What enter does: it pushes Stats from Commits, pushes Diff from Stats after the
diff query for the current commit range, and does nothing elsewhere. -/
theorem enter_frame (ops : ListOps) (git : Git) (m m1 : appModel)
    (h : m.enter ops git = some m1) :
    m1.commits = m.commits ∧ m1.commitsList = m.commitsList ∧
      m1.watcherReady = m.watcherReady ∧
      ((m.currentView = some commitsView ∧ m1.history = m.history ++ [statsView]) ∨
        (m.currentView = some statsView ∧ m1.history = m.history ++ [diffView] ∧
          ∃ s e dm, m.getCommitRange = some (s, e) ∧
            goIndex m.stats m.statsList.cursor = some dm ∧
            m1.diff = git.gitDiff s e dm.Path dm.OldPath ∧
            m1.diffModel.path = dm.Path ∧ m1.diffModel.oldPath = dm.OldPath ∧
            m1.stats = m.stats ∧ m1.statsList = m.statsList) ∨
        (m.currentView ≠ some commitsView ∧ m.currentView ≠ some statsView ∧ m1 = m)) := by
  unfold appModel.enter at h
  cases hv : m.currentView with
  | none => rw [hv] at h; simp at h
  | some v =>
    rw [hv] at h
    simp only at h
    split_ifs at h with h1 h2
    · cases hr : m.getCommitRange with
      | none => rw [hr] at h; simp at h
      | some r =>
        obtain ⟨s, e⟩ := r
        rw [hr] at h
        simp only [Option.some.injEq] at h
        subst h
        subst h1
        exact ⟨rfl, rfl, rfl, Or.inl ⟨rfl, rfl⟩⟩
    · cases hr : m.getCommitRange with
      | none => rw [hr] at h; simp at h
      | some r =>
        obtain ⟨s, e⟩ := r
        rw [hr] at h
        simp only at h
        cases hd : goIndex m.stats m.statsList.cursor with
        | none => rw [hd] at h; simp at h
        | some dm =>
          rw [hd] at h
          simp only [Option.some.injEq] at h
          subst h
          subst h2
          exact ⟨rfl, rfl, rfl,
            Or.inr (Or.inl ⟨rfl, rfl, s, e, dm, rfl, rfl, rfl, rfl, rfl, rfl, rfl⟩)⟩
    · simp only [Option.some.injEq] at h
      subst h
      refine ⟨rfl, rfl, rfl, Or.inr (Or.inr ⟨?_, ?_, rfl⟩)⟩
      · intro hc
        exact h1 (Option.some.inj hc)
      · intro hc
        exact h2 (Option.some.inj hc)

/-- `popView` removes the top entry of the view stack and nothing else. -/
theorem popView_some (m m1 : appModel) (h : m.popView = some m1) :
    m1 = { m with history := m.history.dropLast } := by
  unfold appModel.popView at h
  split_ifs at h
  simp only [Option.some.injEq] at h
  subst h
  rw [List.dropLast_eq_take]

/-- What a file change does: a diff query for the current commit range when the Diff
screen shows that path, nothing otherwise. -/
theorem filechange_frame (ops : ListOps) (git : Git) (m m1 : appModel) (w : watcherMessage)
    (h : m.filechange ops git w = some m1) :
    m1.history = m.history ∧ m1.commits = m.commits ∧ m1.commitsList = m.commitsList ∧
      m1.stats = m.stats ∧ m1.statsList = m.statsList ∧ m1.watcherReady = m.watcherReady ∧
      m1.diffModel.path = m.diffModel.path ∧ m1.diffModel.oldPath = m.diffModel.oldPath ∧
      ((m.currentView = some diffView ∧ m.diffModel.path = w.path ∧
          ∃ s e, m.getCommitRange = some (s, e) ∧
            m1.diff = git.gitDiff s e m.diffModel.path m.diffModel.oldPath) ∨
        (¬ (m.currentView = some diffView ∧ m.diffModel.path = w.path) ∧ m1 = m)) := by
  unfold appModel.filechange at h
  cases hv : m.currentView with
  | none => rw [hv] at h; simp at h
  | some v =>
    rw [hv] at h
    simp only at h
    split_ifs at h with h1
    · cases hr : m.getCommitRange with
      | none => rw [hr] at h; simp at h
      | some r =>
        obtain ⟨s, e⟩ := r
        rw [hr] at h
        simp only [Option.some.injEq] at h
        subst h
        obtain ⟨h1a, h1b⟩ := h1
        subst h1a
        exact ⟨rfl, rfl, rfl, rfl, rfl, rfl, rfl, rfl, Or.inl ⟨rfl, h1b, s, e, rfl, rfl⟩⟩
    · simp only [Option.some.injEq] at h
      subst h
      refine ⟨rfl, rfl, rfl, rfl, rfl, rfl, rfl, rfl, Or.inr ⟨?_, rfl⟩⟩
      intro hc
      exact h1 ⟨Option.some.inj hc.1, hc.2⟩

/-- `Update` keeps the view stack a drill-down chain. -/
theorem Update_chain (ops : ListOps) (git : Git) (m : appModel) (msg : Msg)
    (r : appModel × Cmd) (h : m.Update ops git msg = some r)
    (hc : m.history = [commitsView] ∨ m.history = [commitsView, statsView] ∨
      m.history = [commitsView, statsView, diffView]) :
    r.1.history = [commitsView] ∨ r.1.history = [commitsView, statsView] ∨
      r.1.history = [commitsView, statsView, diffView] := by
  have hcs : ¬ (commitsView = statsView) := by decide
  have hsc : ¬ (statsView = commitsView) := by decide
  have hdc : ¬ (diffView = commitsView) := by decide
  have hds : ¬ (diffView = statsView) := by decide
  rcases Update_cases ops git m msg r h with hq | ⟨m1, s, _, hr, hstep⟩
  · rw [hq]; exact hc
  · have hrh : r.1.history = m1.history := by rw [hr]
    rw [hrh]
    rcases hstep with ⟨w, ht, f, h1⟩ | h1 | h1 | ⟨hlen, h1⟩ | ⟨w, h1⟩ | h1 | h1
    · rw [(onCurrentList_frame _ m1 f h1).1]; exact hc
    · rw [(toggleMark_frame m m1 h1).1]; exact hc
    · obtain ⟨_, _, _, hcase⟩ := enter_frame ops git m m1 h1
      rcases hcase with ⟨hv, hh⟩ | ⟨hv, hh, _⟩ | ⟨_, _, hm⟩
      · rcases hc with hc | hc | hc
        · right; left; rw [hh, hc]; rfl
        · rw [currentView_snoc m [commitsView] statsView hc] at hv
          exact absurd (Option.some.inj hv) hsc
        · rw [currentView_snoc m [commitsView, statsView] diffView hc] at hv
          exact absurd (Option.some.inj hv) hdc
      · rcases hc with hc | hc | hc
        · rw [currentView_snoc m [] commitsView hc] at hv
          exact absurd (Option.some.inj hv) hcs
        · right; right; rw [hh, hc]; rfl
        · rw [currentView_snoc m [commitsView, statsView] diffView hc] at hv
          exact absurd (Option.some.inj hv) hds
      · rw [hm]; exact hc
    · rw [popView_some m m1 h1]
      rcases hc with hc | hc | hc
      · rw [hc] at hlen; exact absurd rfl hlen
      · left; simp only [hc]; rfl
      · right; left; simp only [hc]; rfl
    · rw [(filechange_frame ops git m m1 w h1).1]; exact hc
    · rw [h1]; exact hc
    · rw [h1]; exact hc

/-- A run of the event loop keeps the view stack a drill-down chain. -/
theorem run_chain (ops : ListOps) (git : Git) (msgs : List Msg) (m m2 : appModel)
    (hc : m.history = [commitsView] ∨ m.history = [commitsView, statsView] ∨
      m.history = [commitsView, statsView, diffView])
    (h : run ops git m msgs = some m2) :
    m2.history = [commitsView] ∨ m2.history = [commitsView, statsView] ∨
      m2.history = [commitsView, statsView, diffView] := by
  induction msgs generalizing m with
  | nil =>
    simp only [run, Option.some.injEq] at h
    rw [← h]; exact hc
  | cons msg rest ih =>
    unfold run at h
    cases hu : m.Update ops git msg with
    | none => rw [hu] at h; simp at h
    | some r =>
      obtain ⟨m1, c⟩ := r
      have hc1 := Update_chain ops git m msg (m1, c) hu hc
      rw [hu] at h
      cases c with
      | Quit =>
        simp only [Option.some.injEq] at h
        rw [← h]; exact hc1
      | none => exact ih m1 hc1 h

/-- A sub-step without a command followed by the closing lines of `Update` is the
sub-step followed by the status refresh. -/
theorem map_bind_afterStatus (o : Option appModel) :
    (o.map (fun m1 => (m1, Cmd.none))).bind afterStatus = o.bind appModel.withStatus := by
  cases o <;> rfl

/-- The closing lines return an early `tea.Quit` as it is. -/
theorem afterStatus_quit (m : appModel) : afterStatus (m, Cmd.Quit) = some (m, Cmd.Quit) :=
  rfl

/-- The closing lines refresh the status of a model that comes with no command. -/
theorem afterStatus_none (m : appModel) : afterStatus (m, Cmd.none) = m.withStatus :=
  rfl

/-- `Update` is `beforeStatus` followed by the closing lines 385-387. -/
theorem Update_eq_beforeStatus (ops : ListOps) (git : Git) (m : appModel) (msg : Msg) :
    m.Update ops git msg = (m.beforeStatus ops git msg).bind afterStatus := by
  cases msg with
  | WindowSizeMsg w ht =>
    simp only [appModel.Update, appModel.beforeStatus, map_bind_afterStatus]
  | KeyMsg k =>
    unfold appModel.Update appModel.beforeStatus
    simp only
    by_cases h1 : k = "ctrl+c"
    · rw [if_pos h1, if_pos h1]; rfl
    rw [if_neg h1, if_neg h1]
    by_cases h2 : k = " "
    · rw [if_pos h2, if_pos h2, map_bind_afterStatus]
    rw [if_neg h2, if_neg h2]
    by_cases h3 : k = "ctrl+f"
    · rw [if_pos h3, if_pos h3, map_bind_afterStatus]
    rw [if_neg h3, if_neg h3]
    by_cases h4 : k = "ctrl+u"
    · rw [if_pos h4, if_pos h4, map_bind_afterStatus]
    rw [if_neg h4, if_neg h4]
    by_cases h5 : k = "j" ∨ k = "down"
    · rw [if_pos h5, if_pos h5, map_bind_afterStatus]
    rw [if_neg h5, if_neg h5]
    by_cases h6 : k = "k" ∨ k = "up"
    · rw [if_pos h6, if_pos h6, map_bind_afterStatus]
    rw [if_neg h6, if_neg h6]
    by_cases h7 : k = "enter"
    · rw [if_pos h7, if_pos h7, map_bind_afterStatus]
    rw [if_neg h7, if_neg h7]
    by_cases h8 : k = "esc" ∨ k = "q"
    · rw [if_pos h8, if_pos h8]
      by_cases h9 : (m.history.length : Int) = 1
      · rw [if_pos h9, if_pos h9]; rfl
      · rw [if_neg h9, if_neg h9, map_bind_afterStatus]
    rw [if_neg h8, if_neg h8]
    rfl
  | watcher w =>
    unfold appModel.Update appModel.beforeStatus
    simp only
    by_cases h1 : w.event = "ready"
    · rw [if_pos h1, if_pos h1]; rfl
    rw [if_neg h1, if_neg h1]
    by_cases h2 : w.event = "filechange"
    · rw [if_pos h2, if_pos h2, map_bind_afterStatus]
    rw [if_neg h2, if_neg h2]
    rfl
  | other => rfl

/-- A sub-step that returned a pair with no command returned its model. -/
theorem map_none_cmd_some (o : Option appModel) (m1 : appModel) (c : Cmd)
    (h : o.map (fun x => (x, Cmd.none)) = some (m1, c)) : c = Cmd.none ∧ o = some m1 := by
  cases o with
  | none => simp at h
  | some x =>
    simp only [Option.map_some', Option.some.injEq, Prod.mk.injEq] at h
    exact ⟨h.2.symm, by rw [h.1]⟩

/-- Every outcome of `beforeStatus` is either the unchanged model with `tea.Quit`,
or the result of one sub-step with no command. -/
theorem beforeStatus_cases (ops : ListOps) (git : Git) (m : appModel) (msg : Msg)
    (m1 : appModel) (c : Cmd) (h : m.beforeStatus ops git msg = some (m1, c)) :
    (c = Cmd.Quit ∧ m1 = m) ∨
    (c = Cmd.none ∧
      ((∃ w ht f, appModel.onCurrentList { m with width := w, height := ht } f = some m1) ∨
        m.toggleMark = some m1 ∨ m.enter ops git = some m1 ∨
        ((m.history.length : Int) ≠ 1 ∧ m.popView = some m1) ∨
        (∃ w, m.filechange ops git w = some m1) ∨
        m1 = m ∨ m1 = { m with watcherReady := true })) := by
  have hq : ∀ x : appModel, some (x, Cmd.Quit) = some (m1, c) → c = Cmd.Quit ∧ m1 = x := by
    intro x hx
    simp only [Option.some.injEq, Prod.mk.injEq] at hx
    exact ⟨hx.2.symm, hx.1.symm⟩
  have hn : ∀ x : appModel, some (x, Cmd.none) = some (m1, c) → c = Cmd.none ∧ m1 = x := by
    intro x hx
    simp only [Option.some.injEq, Prod.mk.injEq] at hx
    exact ⟨hx.2.symm, hx.1.symm⟩
  cases msg with
  | WindowSizeMsg w ht =>
    simp only [appModel.beforeStatus] at h
    obtain ⟨h1, h2⟩ := map_none_cmd_some _ m1 c h
    exact Or.inr ⟨h1, Or.inl ⟨w, ht, _, h2⟩⟩
  | KeyMsg k =>
    simp only [appModel.beforeStatus] at h
    split_ifs at h
    · exact Or.inl (hq m h)
    · obtain ⟨h1, h2⟩ := map_none_cmd_some _ m1 c h
      exact Or.inr ⟨h1, Or.inr (Or.inl h2)⟩
    · obtain ⟨h1, h2⟩ := map_none_cmd_some _ m1 c h
      exact Or.inr ⟨h1, Or.inl ⟨m.width, m.height, _, h2⟩⟩
    · obtain ⟨h1, h2⟩ := map_none_cmd_some _ m1 c h
      exact Or.inr ⟨h1, Or.inl ⟨m.width, m.height, _, h2⟩⟩
    · obtain ⟨h1, h2⟩ := map_none_cmd_some _ m1 c h
      exact Or.inr ⟨h1, Or.inl ⟨m.width, m.height, _, h2⟩⟩
    · obtain ⟨h1, h2⟩ := map_none_cmd_some _ m1 c h
      exact Or.inr ⟨h1, Or.inl ⟨m.width, m.height, _, h2⟩⟩
    · obtain ⟨h1, h2⟩ := map_none_cmd_some _ m1 c h
      exact Or.inr ⟨h1, Or.inr (Or.inr (Or.inl h2))⟩
    · exact Or.inl (hq m h)
    · obtain ⟨h1, h2⟩ := map_none_cmd_some _ m1 c h
      rename_i hlen
      exact Or.inr ⟨h1, Or.inr (Or.inr (Or.inr (Or.inl ⟨hlen, h2⟩)))⟩
    · obtain ⟨h1, h2⟩ := hn m h
      exact Or.inr ⟨h1, Or.inr (Or.inr (Or.inr (Or.inr (Or.inr (Or.inl h2)))))⟩
  | watcher w =>
    simp only [appModel.beforeStatus] at h
    split_ifs at h
    · obtain ⟨h1, h2⟩ := hn _ h
      exact Or.inr ⟨h1, Or.inr (Or.inr (Or.inr (Or.inr (Or.inr (Or.inr h2)))))⟩
    · obtain ⟨h1, h2⟩ := map_none_cmd_some _ m1 c h
      exact Or.inr ⟨h1, Or.inr (Or.inr (Or.inr (Or.inr (Or.inl ⟨w, h2⟩))))⟩
    · obtain ⟨h1, h2⟩ := hn m h
      exact Or.inr ⟨h1, Or.inr (Or.inr (Or.inr (Or.inr (Or.inr (Or.inl h2)))))⟩
  | other =>
    simp only [appModel.beforeStatus] at h
    obtain ⟨h1, h2⟩ := hn m h
    exact Or.inr ⟨h1, Or.inr (Or.inr (Or.inr (Or.inr (Or.inr (Or.inl h2)))))⟩

/-- On a drill-down chain the current view is the last entry of the stack. -/
theorem chain_currentView (m : appModel)
    (hc : m.history = [commitsView] ∨ m.history = [commitsView, statsView] ∨
      m.history = [commitsView, statsView, diffView]) :
    m.history ≠ [] ∧ m.currentView = m.history.getLast? ∧ ∃ v, m.currentView = some v := by
  rcases hc with hc | hc | hc
  · have hv := currentView_snoc m [] commitsView hc
    exact ⟨by rw [hc]; simp, by rw [hv, hc]; rfl, _, hv⟩
  · have hv := currentView_snoc m [commitsView] statsView hc
    exact ⟨by rw [hc]; simp, by rw [hv, hc]; rfl, _, hv⟩
  · have hv := currentView_snoc m [commitsView, statsView] diffView hc
    exact ⟨by rw [hc]; simp, by rw [hv, hc]; rfl, _, hv⟩

/-- Every outcome of `beforeStatus` on a drill-down chain has a drill-down chain:
the model handed to `getStatus` never has an empty view stack. -/
theorem beforeStatus_chain (ops : ListOps) (git : Git) (m : appModel) (msg : Msg)
    (m1 : appModel) (c : Cmd) (h : m.beforeStatus ops git msg = some (m1, c))
    (hc : m.history = [commitsView] ∨ m.history = [commitsView, statsView] ∨
      m.history = [commitsView, statsView, diffView]) :
    m1.history = [commitsView] ∨ m1.history = [commitsView, statsView] ∨
      m1.history = [commitsView, statsView, diffView] := by
  have hcs : ¬ (commitsView = statsView) := by decide
  have hsc : ¬ (statsView = commitsView) := by decide
  have hdc : ¬ (diffView = commitsView) := by decide
  have hds : ¬ (diffView = statsView) := by decide
  rcases beforeStatus_cases ops git m msg m1 c h with ⟨_, hq⟩ | ⟨_, hstep⟩
  · rw [hq]; exact hc
  · rcases hstep with ⟨w, ht, f, h1⟩ | h1 | h1 | ⟨hlen, h1⟩ | ⟨w, h1⟩ | h1 | h1
    · rw [(onCurrentList_frame _ m1 f h1).1]; exact hc
    · rw [(toggleMark_frame m m1 h1).1]; exact hc
    · obtain ⟨_, _, _, hcase⟩ := enter_frame ops git m m1 h1
      rcases hcase with ⟨hv, hh⟩ | ⟨hv, hh, _⟩ | ⟨_, _, hm⟩
      · rcases hc with hc | hc | hc
        · right; left; rw [hh, hc]; rfl
        · rw [currentView_snoc m [commitsView] statsView hc] at hv
          exact absurd (Option.some.inj hv) hsc
        · rw [currentView_snoc m [commitsView, statsView] diffView hc] at hv
          exact absurd (Option.some.inj hv) hdc
      · rcases hc with hc | hc | hc
        · rw [currentView_snoc m [] commitsView hc] at hv
          exact absurd (Option.some.inj hv) hcs
        · right; right; rw [hh, hc]; rfl
        · rw [currentView_snoc m [commitsView, statsView] diffView hc] at hv
          exact absurd (Option.some.inj hv) hds
      · rw [hm]; exact hc
    · rw [popView_some m m1 h1]
      rcases hc with hc | hc | hc
      · rw [hc] at hlen; exact absurd rfl hlen
      · left; simp only [hc]; rfl
      · right; left; simp only [hc]; rfl
    · rw [(filechange_frame ops git m m1 w h1).1]; exact hc
    · rw [h1]; exact hc
    · rw [h1]; exact hc

/-- On a non-empty view stack the dispatch to the list of the top screen returns. -/
theorem onCurrentList_ne_none (m : appModel) (f : listModel → listModel) (v : view)
    (hv : m.currentView = some v) : m.onCurrentList f ≠ none := by
  unfold appModel.onCurrentList
  rw [hv]
  simp only
  split_ifs <;> simp

/-- On a non-empty view stack the mark toggle returns. -/
theorem toggleMark_ne_none (m : appModel) (v : view)
    (hv : m.currentView = some v) : m.toggleMark ≠ none := by
  unfold appModel.toggleMark
  rw [hv]
  simp only
  split_ifs <;> simp

/-- Enter panics only on an index into the commit list or the stat list. -/
theorem enter_none (ops : ListOps) (git : Git) (m : appModel) (v : view)
    (hv : m.currentView = some v) (h : m.enter ops git = none) :
    m.getCommitRange = none ∨ goIndex m.stats m.statsList.cursor = none := by
  unfold appModel.enter at h
  rw [hv] at h
  simp only at h
  cases hr : m.getCommitRange with
  | none => exact Or.inl rfl
  | some r =>
    obtain ⟨s, e⟩ := r
    rw [hr] at h
    cases hd : goIndex m.stats m.statsList.cursor with
    | none => exact Or.inr rfl
    | some dm =>
      rw [hd] at h
      split_ifs at h

/-- A file change panics only on an index into the commit list. -/
theorem filechange_none (ops : ListOps) (git : Git) (m : appModel) (w : watcherMessage)
    (v : view) (hv : m.currentView = some v) (h : m.filechange ops git w = none) :
    m.getCommitRange = none := by
  unfold appModel.filechange at h
  rw [hv] at h
  simp only at h
  cases hr : m.getCommitRange with
  | none => rfl
  | some r =>
    obtain ⟨s, e⟩ := r
    rw [hr] at h
    split_ifs at h

/-- On a drill-down chain `beforeStatus` panics only on an index into the commit
list or the stat list, never on the view stack. -/
theorem beforeStatus_none (ops : ListOps) (git : Git) (m : appModel) (msg : Msg)
    (hc : m.history = [commitsView] ∨ m.history = [commitsView, statsView] ∨
      m.history = [commitsView, statsView, diffView])
    (h : m.beforeStatus ops git msg = none) :
    m.getCommitRange = none ∨ goIndex m.stats m.statsList.cursor = none := by
  obtain ⟨hne, _, v, hv⟩ := chain_currentView m hc
  have hpos : 0 < m.history.length := List.length_pos.mpr hne
  have hlist : ∀ (m0 : appModel) (f : listModel → listModel), m0.currentView = some v →
      (m0.onCurrentList f).map (fun m1 => (m1, Cmd.none)) ≠ none := by
    intro m0 f h0 hx
    rw [Option.map_eq_none'] at hx
    exact onCurrentList_ne_none m0 f v h0 hx
  cases msg with
  | WindowSizeMsg w ht =>
    simp only [appModel.beforeStatus] at h
    exact absurd h (hlist _ _ hv)
  | KeyMsg k =>
    simp only [appModel.beforeStatus] at h
    split_ifs at h
    · rw [Option.map_eq_none'] at h
      exact absurd h (toggleMark_ne_none m v hv)
    · exact absurd h (hlist _ _ hv)
    · exact absurd h (hlist _ _ hv)
    · exact absurd h (hlist _ _ hv)
    · exact absurd h (hlist _ _ hv)
    · rw [Option.map_eq_none'] at h
      exact enter_none ops git m v hv h
    · rw [Option.map_eq_none'] at h
      unfold appModel.popView at h
      rw [if_neg (by omega)] at h
      simp at h
  | watcher w =>
    simp only [appModel.beforeStatus] at h
    split_ifs at h
    rw [Option.map_eq_none'] at h
    exact Or.inl (filechange_none ops git m w v hv h)
  | other =>
    simp [appModel.beforeStatus] at h

/-- C12: for every finite sequence of events applied by `Update` from the initial
state and every further message, the view stack of the state reached is one of
[commits], [commits, stats], [commits, stats, diff]; it is never empty, and
`currentView` returns its last entry.  Handling the further message keeps it so:
the model that `Update` hands to `getStatus` (or returns with `tea.Quit`) again has
one of the three stacks, so neither `currentView` nor `popView` meets an empty
stack, and the part of `Update` before the status refresh can only panic on an
index into the commit list or the stat list. -/
theorem history_drill_down (ops : ListOps) (git : Git) (commits : List commit)
    (msgs : List Msg) (m : appModel) (msg : Msg)
    (h : run ops git (initialModel ops commits) msgs = some m) :
    (m.history = [commitsView] ∨ m.history = [commitsView, statsView] ∨
      m.history = [commitsView, statsView, diffView]) ∧
    m.history ≠ [] ∧ m.currentView = m.history.getLast? ∧ m.currentView ≠ none ∧
    m.Update ops git msg = (m.beforeStatus ops git msg).bind afterStatus ∧
    (∀ m1 c, m.beforeStatus ops git msg = some (m1, c) →
      (m1.history = [commitsView] ∨ m1.history = [commitsView, statsView] ∨
        m1.history = [commitsView, statsView, diffView]) ∧
      m1.history ≠ [] ∧ m1.currentView = m1.history.getLast? ∧ m1.currentView ≠ none) ∧
    (m.beforeStatus ops git msg = none →
      m.getCommitRange = none ∨ goIndex m.stats m.statsList.cursor = none) := by
  have hc := run_chain ops git msgs (initialModel ops commits) m (Or.inl rfl) h
  obtain ⟨h1, h2, v, h3⟩ := chain_currentView m hc
  refine ⟨hc, h1, h2, by rw [h3]; simp, Update_eq_beforeStatus ops git m msg, ?_,
    beforeStatus_none ops git m msg hc⟩
  intro m1 c hb
  have hc1 := beforeStatus_chain ops git m msg m1 c hb hc
  obtain ⟨k1, k2, v1, k3⟩ := chain_currentView m1 hc1
  exact ⟨hc1, k1, k2, by rw [k3]; simp⟩

/-- Witness of `history_drill_down`: resize, enter, enter, esc, enter, enter over three
commits ends on the Diff screen, and a further esc hands the stack
[commits, stats] to the status refresh. -/
theorem history_drill_down_witness :
    exampleDiff.history = [commitsView, statsView, diffView] ∧
    exampleDiff.beforeStatus exampleOps exampleGit (Msg.KeyMsg "esc")
      = some ({ exampleDiff with history := [commitsView, statsView] }, Cmd.none) ∧
    (({ exampleDiff with history := [commitsView, statsView] } : appModel).history
        = [commitsView] ∨
      ({ exampleDiff with history := [commitsView, statsView] } : appModel).history
        = [commitsView, statsView] ∨
      ({ exampleDiff with history := [commitsView, statsView] } : appModel).history
        = [commitsView, statsView, diffView]) :=
  ⟨by decide, by decide,
    ((history_drill_down exampleOps exampleGit exampleCommits
      [Msg.WindowSizeMsg 80 10, Msg.KeyMsg "enter", Msg.KeyMsg "enter", Msg.KeyMsg "esc",
        Msg.KeyMsg "enter", Msg.KeyMsg "enter"]
      exampleDiff (Msg.KeyMsg "esc") (by decide)).2.2.2.2.2.1
      { exampleDiff with history := [commitsView, statsView] } Cmd.none (by decide)).1⟩

/-- While Stats or Diff (any screen but Commits) is on top, `Update` changes neither
the commit list nor the Commits list model, so cursor and mark are frozen. -/
theorem Update_commitsList_frozen (ops : ListOps) (git : Git) (m : appModel) (msg : Msg)
    (r : appModel × Cmd) (h : m.Update ops git msg = some r)
    (hv : m.currentView ≠ some commitsView) :
    r.1.commits = m.commits ∧ r.1.commitsList = m.commitsList := by
  rcases Update_cases ops git m msg r h with hq | ⟨m1, s, _, hr, hstep⟩
  · rw [hq]; exact ⟨rfl, rfl⟩
  · have hr1 : r.1.commits = m1.commits := by rw [hr]
    have hr2 : r.1.commitsList = m1.commitsList := by rw [hr]
    rw [hr1, hr2]
    rcases hstep with ⟨w, ht, f, h1⟩ | h1 | h1 | ⟨_, h1⟩ | ⟨w, h1⟩ | h1 | h1
    · have hf := onCurrentList_frame _ m1 f h1
      exact ⟨hf.2.1, hf.2.2.2.2.2.2.2.1 hv⟩
    · have hf := toggleMark_frame m m1 h1
      exact ⟨hf.2.1, hf.2.2.2.2.2.2.2.2 hv⟩
    · have hf := enter_frame ops git m m1 h1
      exact ⟨hf.1, hf.2.1⟩
    · rw [popView_some m m1 h1]; exact ⟨rfl, rfl⟩
    · have hf := filechange_frame ops git m m1 w h1
      exact ⟨hf.2.1, hf.2.2.1⟩
    · rw [h1]; exact ⟨rfl, rfl⟩
    · rw [h1]; exact ⟨rfl, rfl⟩

/-- While Diff is on top, `Update` changes neither the stat list, the Stats list
model, nor the path and old path of the diff shown. -/
theorem Update_frame_on_diff (ops : ListOps) (git : Git) (m : appModel) (msg : Msg)
    (r : appModel × Cmd) (h : m.Update ops git msg = some r)
    (hv : m.currentView = some diffView) :
    r.1.stats = m.stats ∧ r.1.statsList = m.statsList ∧
      r.1.diffModel.path = m.diffModel.path ∧ r.1.diffModel.oldPath = m.diffModel.oldPath := by
  have hdc : ¬ (diffView = commitsView) := by decide
  have hds : ¬ (diffView = statsView) := by decide
  have hvs : m.currentView ≠ some statsView := by
    rw [hv]; intro hc; exact hds (Option.some.inj hc)
  rcases Update_cases ops git m msg r h with hq | ⟨m1, s, _, hr, hstep⟩
  · rw [hq]; exact ⟨rfl, rfl, rfl, rfl⟩
  · have hr1 : r.1.stats = m1.stats := by rw [hr]
    have hr2 : r.1.statsList = m1.statsList := by rw [hr]
    have hr3 : r.1.diffModel = m1.diffModel := by rw [hr]
    rw [hr1, hr2, hr3]
    rcases hstep with ⟨w, ht, f, h1⟩ | h1 | h1 | ⟨_, h1⟩ | ⟨w, h1⟩ | h1 | h1
    · have hf := onCurrentList_frame _ m1 f h1
      exact ⟨hf.2.2.1, hf.2.2.2.2.2.2.2.2.1 hvs, hf.2.2.2.2.2.1, hf.2.2.2.2.2.2.1⟩
    · have hf := toggleMark_frame m m1 h1
      refine ⟨hf.2.2.1, hf.2.2.2.2.2.1, ?_, ?_⟩ <;> rw [hf.2.2.2.2.2.2.1]
    · obtain ⟨_, _, _, hcase⟩ := enter_frame ops git m m1 h1
      rcases hcase with ⟨hv1, _⟩ | ⟨hv1, _⟩ | ⟨_, _, hm⟩
      · rw [hv] at hv1; exact absurd (Option.some.inj hv1) hdc
      · rw [hv] at hv1; exact absurd (Option.some.inj hv1) hds
      · rw [hm]; exact ⟨rfl, rfl, rfl, rfl⟩
    · rw [popView_some m m1 h1]; exact ⟨rfl, rfl, rfl, rfl⟩
    · have hf := filechange_frame ops git m m1 w h1
      exact ⟨hf.2.2.2.1, hf.2.2.2.2.1, hf.2.2.2.2.2.2.1, hf.2.2.2.2.2.2.2.1⟩
    · rw [h1]; exact ⟨rfl, rfl, rfl, rfl⟩
    · rw [h1]; exact ⟨rfl, rfl, rfl, rfl⟩

/-- While the Diff screen stays on top, the commit list, the Commits and Stats list
models and the path shown do not change. -/
theorem runOn_diff_frame (ops : ListOps) (git : Git) (msgs : List Msg) (m m2 : appModel)
    (hv : m.currentView = some diffView)
    (h : runOn diffView ops git m msgs = some m2) :
    m2.currentView = some diffView ∧ m2.commits = m.commits ∧
      m2.commitsList = m.commitsList ∧ m2.stats = m.stats ∧ m2.statsList = m.statsList ∧
      m2.diffModel.path = m.diffModel.path ∧ m2.diffModel.oldPath = m.diffModel.oldPath := by
  have hdc : ¬ (diffView = commitsView) := by decide
  induction msgs generalizing m with
  | nil =>
    simp only [runOn, Option.some.injEq] at h
    rw [← h]; exact ⟨hv, rfl, rfl, rfl, rfl, rfl, rfl⟩
  | cons msg rest ih =>
    unfold runOn at h
    cases hu : m.Update ops git msg with
    | none => rw [hu] at h; simp at h
    | some r =>
      obtain ⟨m1, c⟩ := r
      rw [hu] at h
      cases c with
      | Quit => simp at h
      | none =>
        simp only at h
        split_ifs at h with hv1
        have hvc : m.currentView ≠ some commitsView := by
          rw [hv]; intro hc; exact hdc (Option.some.inj hc)
        obtain ⟨a1, a2⟩ := Update_commitsList_frozen ops git m msg (m1, Cmd.none) hu hvc
        obtain ⟨b1, b2, b3, b4⟩ := Update_frame_on_diff ops git m msg (m1, Cmd.none) hu hv
        obtain ⟨c0, c1, c2, c3, c4, c5, c6⟩ := ih m1 hv1 h
        simp only at a1 a2 b1 b2 b3 b4
        exact ⟨c0, by rw [c1, a1], by rw [c2, a2], by rw [c3, b1], by rw [c4, b2],
          by rw [c5, b3], by rw [c6, b4]⟩

/-- A file change for the path shown on the Diff screen queries git with the current
commit range and that path. -/
theorem filechange_on_diff (ops : ListOps) (git : Git) (m : appModel) (w : watcherMessage)
    (s e : String) (hv : m.currentView = some diffView) (hp : m.diffModel.path = w.path)
    (hr : m.getCommitRange = some (s, e)) :
    m.filechange ops git w
      = some { m with
          diff := git.gitDiff s e m.diffModel.path m.diffModel.oldPath,
          diffModel := { m.diffModel with
            list := ops.setCount m.diffModel.list
              ((git.gitDiff s e m.diffModel.path m.diffModel.oldPath).length : Int) } } := by
  unfold appModel.filechange
  rw [hv]
  simp only [hp, hr, and_self, if_true]

/-- The status text on the Diff screen. -/
theorem getStatus_on_diff (m : appModel) (r : String × String) (dm : stat)
    (hv : m.currentView = some diffView) (hr : m.getCommitRange = some r)
    (hd : goIndex m.stats m.statsList.cursor = some dm) :
    m.getStatus = some (appModel.rangeText r ++ ": " ++ dm.Path) := by
  have hdc : ¬ (diffView = commitsView) := by decide
  have hds : ¬ (diffView = statsView) := by decide
  unfold appModel.getStatus
  rw [hv]
  simp only [if_neg hdc, if_neg hds, if_true, hr, hd]

/-- C13: let the Diff screen be entered by enter on a state `m_s` with Stats on top
(every such state, in particular every one reached from the initial state over a
non-empty commit list), let Diff stay on top during the events `mid`, and let a
filechange message for the path shown arrive.  The git queries answer as `git`
up to then and as `git2`, an arbitrary other function, when the message is
handled.  Then the entry installed `git.gitDiff start end path oldPath` for the
commit range (start, end) of `m_s`, cursor and mark of the Commits list and the
path shown did not change in between, and handling the message is exactly this
step: `Update` returns the model whose diff is
`git2.gitDiff start end path oldPath` for the same (start, end) and path, whose
list is `setCount` of the old list with the new line count, and whose status is
refreshed; nothing else changes. -/
theorem refresh_uses_entry_range (ops : ListOps) (git git2 : Git) (m_s m_d m_k : appModel)
    (mid : List Msg) (w : watcherMessage)
    (hs : m_s.currentView = some statsView)
    (hent : m_s.Update ops git (Msg.KeyMsg "enter") = some (m_d, Cmd.none))
    (hmid : runOn diffView ops git m_d mid = some m_k)
    (hev : w.event = "filechange") (hp : w.path = m_k.diffModel.path) :
    ∃ s e dm, m_s.getCommitRange = some (s, e) ∧
      goIndex m_s.stats m_s.statsList.cursor = some dm ∧
      m_d.diff = git.gitDiff s e dm.Path dm.OldPath ∧
      m_d.diffModel.path = dm.Path ∧ m_d.diffModel.oldPath = dm.OldPath ∧
      m_k.diffModel.path = dm.Path ∧ m_k.diffModel.oldPath = dm.OldPath ∧
      m_k.commitsList = m_s.commitsList ∧ m_k.commits = m_s.commits ∧
      m_k.getCommitRange = some (s, e) ∧
      m_k.filechange ops git2 w
        = some { m_k with
            diff := git2.gitDiff s e dm.Path dm.OldPath,
            diffModel := { m_k.diffModel with
              list := ops.setCount m_k.diffModel.list
                ((git2.gitDiff s e dm.Path dm.OldPath).length : Int) } } ∧
      m_k.Update ops git2 (Msg.watcher w)
        = some ({ m_k with
            diff := git2.gitDiff s e dm.Path dm.OldPath,
            diffModel := { m_k.diffModel with
              list := ops.setCount m_k.diffModel.list
                ((git2.gitDiff s e dm.Path dm.OldPath).length : Int) },
            status := appModel.rangeText (s, e) ++ ": " ++ dm.Path }, Cmd.none) := by
  have hsc : ¬ (statsView = commitsView) := by decide
  have hU : m_s.Update ops git (Msg.KeyMsg "enter")
      = (m_s.enter ops git).bind appModel.withStatus := by
    simp [appModel.Update]
  rw [hU] at hent
  obtain ⟨m1, st, h1, _, hr1⟩ := bind_withStatus_some _ _ hent
  have hmd : m_d = { m1 with status := st } := (Prod.mk.inj hr1).1
  obtain ⟨e1, e2, _, hcase⟩ := enter_frame ops git m_s m1 h1
  rcases hcase with ⟨hv1, _⟩ | ⟨_, hh, s, e, dm, hr, hd, hdiff, hpath, hold, hst, hsl⟩ |
    ⟨_, hv1, _⟩
  · rw [hs] at hv1; exact absurd (Option.some.inj hv1) hsc
  · have hvd : m_d.currentView = some diffView := by
      apply currentView_snoc m_d m_s.history diffView
      rw [hmd]; exact hh
    obtain ⟨k0, k1, k2, k3, k4, k5, k6⟩ := runOn_diff_frame ops git mid m_d m_k hvd hmid
    have hdc : m_d.commits = m_s.commits := by rw [hmd]; exact e1
    have hdl : m_d.commitsList = m_s.commitsList := by rw [hmd]; exact e2
    have hdp : m_d.diffModel.path = dm.Path := by rw [hmd]; exact hpath
    have hdo : m_d.diffModel.oldPath = dm.OldPath := by rw [hmd]; exact hold
    have hkp : m_k.diffModel.path = dm.Path := by rw [k5, hdp]
    have hko : m_k.diffModel.oldPath = dm.OldPath := by rw [k6, hdo]
    have hkr : m_k.getCommitRange = some (s, e) := by
      rw [getCommitRange_congr m_s m_k (by rw [k1, hdc]) (by rw [k2, hdl])]; exact hr
    have hkd : goIndex m_k.stats m_k.statsList.cursor = some dm := by
      rw [k3, k4, hmd]
      show goIndex m1.stats m1.statsList.cursor = some dm
      rw [hst, hsl]; exact hd
    have hU2 : m_k.Update ops git2 (Msg.watcher w)
        = (m_k.filechange ops git2 w).bind appModel.withStatus := by
      simp [appModel.Update, hev]
    have hfc := filechange_on_diff ops git2 m_k w s e k0 hp.symm hkr
    rw [hkp, hko] at hfc
    have hgs := getStatus_on_diff
      { m_k with
          diff := git2.gitDiff s e dm.Path dm.OldPath,
          diffModel := { m_k.diffModel with
            list := ops.setCount m_k.diffModel.list
              ((git2.gitDiff s e dm.Path dm.OldPath).length : Int) } }
      (s, e) dm k0 hkr hkd
    refine ⟨s, e, dm, hr, hd, ?_, hdp, hdo, hkp, hko, by rw [k2, hdl], by rw [k1, hdc], hkr,
      hfc, ?_⟩
    · rw [hmd]
      show m1.diff = git.gitDiff s e dm.Path dm.OldPath
      exact hdiff
    · rw [hU2, hfc, Option.some_bind]
      unfold appModel.withStatus
      rw [hgs]
  · exact absurd hs hv1

/-- Witness of `refresh_uses_entry_range`: the Diff screen for "a.go" entered from the
example Stats screen, then j, a resize and a file change for "b.go", then a file
change for "a.go" that git answers with other lines than at the entry. -/
theorem refresh_uses_entry_range_witness :
    exampleStats.getCommitRange = some ("cccccccccc", "") ∧
    exampleDiff.diff = exampleGit.gitDiff "cccccccccc" "" "a.go" "" ∧
    exampleDiff.Update exampleOps exampleGit2 (Msg.watcher ⟨"filechange", "a.go"⟩)
      = some ({ exampleDiff with
          diff := ["@@ cccccccccc..", "+newer a.go"],
          diffModel := { path := "a.go", oldPath := "", list := ⟨2, 0, 2, 3, -1, -1⟩ } },
        Cmd.none) ∧
    ∃ s e dm, exampleStats.getCommitRange = some (s, e) ∧
      goIndex exampleStats.stats exampleStats.statsList.cursor = some dm ∧
      exampleDiff.Update exampleOps exampleGit2 (Msg.watcher ⟨"filechange", "a.go"⟩)
        = some ({ exampleDiff with
            diff := exampleGit2.gitDiff s e dm.Path dm.OldPath,
            diffModel := { exampleDiff.diffModel with
              list := exampleOps.setCount exampleDiff.diffModel.list
                ((exampleGit2.gitDiff s e dm.Path dm.OldPath).length : Int) },
            status := appModel.rangeText (s, e) ++ ": " ++ dm.Path }, Cmd.none) := by
  obtain ⟨s, e, dm, h1, h2, _, _, _, _, _, _, _, _, _, h12⟩ :=
    refresh_uses_entry_range exampleOps exampleGit exampleGit2 exampleStats exampleDiff
      exampleDiff
      [Msg.KeyMsg "j", Msg.WindowSizeMsg 80 10, Msg.watcher ⟨"filechange", "b.go"⟩]
      ⟨"filechange", "a.go"⟩ (by decide) (by decide) (by decide) (by decide) (by decide)
  exact ⟨by decide, by decide, by decide, s, e, dm, h1, h2, h12⟩

end MainGo

/-! ## Keys and cancel in main.go and diff-explore.go -/

namespace DiffExploreGo

/-- A non-empty view stack has a current view. -/
theorem currentView_of_ne_nil (m : appModel) (h : m.history ≠ []) :
    ∃ v, m.currentView = some v := by
  have hpos : 0 < m.history.length := List.length_pos.mpr h
  exact goIndex_of_lt m.history ((m.history.length : Int) - 1) (by omega) (by omega)

/-- On a non-empty view stack the dispatch to the list of the top screen returns, and
what it leaves unchanged. -/
theorem onCurrentList_total (m : appModel) (f : listModel → listModel) (h : m.history ≠ []) :
    ∃ m1, m.onCurrentList f = some m1 ∧
      m1.history = m.history ∧ m1.commits = m.commits ∧ m1.stats = m.stats ∧ m1.diff = m.diff ∧
      m1.status = m.status ∧ m1.height = m.height ∧ m1.width = m.width ∧
      (m.currentView ≠ some commitsView → m1.commitsList = m.commitsList) ∧
      (m.currentView ≠ some statsView → m1.statsList = m.statsList) ∧
      (m.currentView ≠ some diffView → m1.diffModel = m.diffModel) := by
  obtain ⟨v, hv⟩ := currentView_of_ne_nil m h
  unfold appModel.onCurrentList
  rw [hv]
  simp only
  split_ifs with h1 h2 h3 <;> exact ⟨_, rfl, by simp_all⟩

/-- On a non-empty view stack the mark toggle returns, and what it leaves unchanged. -/
theorem toggleMark_total (m : appModel) (h : m.history ≠ []) :
    ∃ m1, m.toggleMark = some m1 ∧
      m1.history = m.history ∧ m1.commits = m.commits ∧ m1.stats = m.stats ∧ m1.diff = m.diff ∧
      m1.status = m.status ∧ m1.height = m.height ∧ m1.width = m.width ∧
      m1.statsList = m.statsList ∧ m1.diffModel = m.diffModel ∧
      m1.commitsList = { m.commitsList with marked := m1.commitsList.marked } ∧
      (m.currentView ≠ some commitsView → m1 = m) := by
  obtain ⟨v, hv⟩ := currentView_of_ne_nil m h
  unfold appModel.toggleMark
  rw [hv]
  simp only
  split_ifs with h1 h2 <;> exact ⟨_, rfl, by simp_all⟩

end DiffExploreGo

/-- C14: for every app state of main.go and of diff-explore.go and every key among
space, ctrl+f, ctrl+u, j and k, `Update` leaves the view stack and the commits,
stats and diff data unchanged and changes no list model except the one of the
screen on top; space changes nothing but `commitsList.marked`, and only when
Commits is on top.  In diff-explore.go `Update` returns for every non-empty view
stack; in main.go the statement is about every result `Update` returns. -/
theorem keys_routed_to_top (ops : MainGo.ListOps) (git : MainGo.Git) (m : MainGo.appModel)
    (gitD : DiffExploreGo.Git) (d : DiffExploreGo.appModel) (k : String)
    (hk : k = " " ∨ k = "ctrl+f" ∨ k = "ctrl+u" ∨ k = "j" ∨ k = "k") :
    (∀ r, m.Update ops git (MainGo.Msg.KeyMsg k) = some r →
      r.2 = MainGo.Cmd.none ∧ r.1.history = m.history ∧ r.1.commits = m.commits ∧
      r.1.stats = m.stats ∧ r.1.diff = m.diff ∧
      (m.currentView ≠ some MainGo.commitsView → r.1.commitsList = m.commitsList) ∧
      (m.currentView ≠ some MainGo.statsView → r.1.statsList = m.statsList) ∧
      (m.currentView ≠ some MainGo.diffView → r.1.diffModel = m.diffModel) ∧
      (k = " " → r.1.statsList = m.statsList ∧ r.1.diffModel = m.diffModel ∧
        r.1.commitsList = { m.commitsList with marked := r.1.commitsList.marked })) ∧
    (d.history ≠ [] →
      ∃ d1, d.Update gitD (DiffExploreGo.Msg.KeyMsg k) = some (d1, DiffExploreGo.Cmd.none) ∧
        d1.history = d.history ∧ d1.commits = d.commits ∧ d1.stats = d.stats ∧
        d1.diff = d.diff ∧
        (d.currentView ≠ some DiffExploreGo.commitsView → d1.commitsList = d.commitsList) ∧
        (d.currentView ≠ some DiffExploreGo.statsView → d1.statsList = d.statsList) ∧
        (d.currentView ≠ some DiffExploreGo.diffView → d1.diffModel = d.diffModel) ∧
        (k = " " → d1.statsList = d.statsList ∧ d1.diffModel = d.diffModel ∧
          d1.commitsList = { d.commitsList with marked := d1.commitsList.marked } ∧
          (d.currentView ≠ some DiffExploreGo.commitsView → d1 = d))) := by
  have hlist : ∀ (f : listModel → listModel) (r : MainGo.appModel × MainGo.Cmd),
      (m.onCurrentList f).bind MainGo.appModel.withStatus = some r →
      r.2 = MainGo.Cmd.none ∧ r.1.history = m.history ∧ r.1.commits = m.commits ∧
      r.1.stats = m.stats ∧ r.1.diff = m.diff ∧
      (m.currentView ≠ some MainGo.commitsView → r.1.commitsList = m.commitsList) ∧
      (m.currentView ≠ some MainGo.statsView → r.1.statsList = m.statsList) ∧
      (m.currentView ≠ some MainGo.diffView → r.1.diffModel = m.diffModel) := by
    intro f r hr
    obtain ⟨m1, s, h1, _, hr1⟩ := MainGo.bind_withStatus_some _ r hr
    obtain ⟨f1, f2, f3, f4, _, _, _, f8, f9, f10⟩ := MainGo.onCurrentList_frame m m1 f h1
    rw [hr1]
    exact ⟨rfl, f1, f2, f3, f4, f8, f9, f10⟩
  have hlistD : ∀ (f : listModel → listModel), d.history ≠ [] →
      ∃ d1, DiffExploreGo.appModel.done (d.onCurrentList f) = some (d1, DiffExploreGo.Cmd.none) ∧
        d1.history = d.history ∧ d1.commits = d.commits ∧ d1.stats = d.stats ∧
        d1.diff = d.diff ∧
        (d.currentView ≠ some DiffExploreGo.commitsView → d1.commitsList = d.commitsList) ∧
        (d.currentView ≠ some DiffExploreGo.statsView → d1.statsList = d.statsList) ∧
        (d.currentView ≠ some DiffExploreGo.diffView → d1.diffModel = d.diffModel) := by
    intro f hne
    obtain ⟨d1, h1, f1, f2, f3, f4, _, _, _, f8, f9, f10⟩ :=
      DiffExploreGo.onCurrentList_total d f hne
    refine ⟨d1, ?_, f1, f2, f3, f4, f8, f9, f10⟩
    rw [h1]; rfl
  rcases hk with rfl | rfl | rfl | rfl | rfl
  · constructor
    · intro r hr
      have hU : m.Update ops git (MainGo.Msg.KeyMsg " ")
          = m.toggleMark.bind MainGo.appModel.withStatus := by
        simp [MainGo.appModel.Update]
      rw [hU] at hr
      obtain ⟨m1, s, h1, _, hr1⟩ := MainGo.bind_withStatus_some _ r hr
      obtain ⟨f1, f2, f3, f4, _, f6, f7, f8, f9⟩ := MainGo.toggleMark_frame m m1 h1
      rw [hr1]
      exact ⟨rfl, f1, f2, f3, f4, f9, fun _ => f6, fun _ => f7, fun _ => ⟨f6, f7, f8⟩⟩
    · intro hne
      have hU : d.Update gitD (DiffExploreGo.Msg.KeyMsg " ")
          = DiffExploreGo.appModel.done d.toggleMark := by
        simp [DiffExploreGo.appModel.Update]
      obtain ⟨d1, h1, f1, f2, f3, f4, _, _, _, f8, f9, f10, f11⟩ :=
        DiffExploreGo.toggleMark_total d hne
      refine ⟨d1, ?_, f1, f2, f3, f4, ?_, fun _ => f8, fun _ => f9,
        fun _ => ⟨f8, f9, f10, f11⟩⟩
      · rw [hU, h1]; rfl
      · intro hv
        rw [f11 hv]
  · constructor
    · intro r hr
      have hU : m.Update ops git (MainGo.Msg.KeyMsg "ctrl+f")
          = (m.onCurrentList ops.nextPage).bind MainGo.appModel.withStatus := by
        simp [MainGo.appModel.Update]
      rw [hU] at hr
      obtain ⟨g1, g2, g3, g4, g5, g6, g7, g8⟩ := hlist _ r hr
      exact ⟨g1, g2, g3, g4, g5, g6, g7, g8, fun hc => absurd hc (by decide)⟩
    · intro hne
      have hU : d.Update gitD (DiffExploreGo.Msg.KeyMsg "ctrl+f")
          = DiffExploreGo.appModel.done (d.onCurrentList listModel.nextPage) := by
        simp [DiffExploreGo.appModel.Update]
      obtain ⟨d1, g0, g1, g2, g3, g4, g5, g6, g7⟩ := hlistD listModel.nextPage hne
      exact ⟨d1, by rw [hU]; exact g0, g1, g2, g3, g4, g5, g6, g7,
        fun hc => absurd hc (by decide)⟩
  · constructor
    · intro r hr
      have hU : m.Update ops git (MainGo.Msg.KeyMsg "ctrl+u")
          = (m.onCurrentList ops.prevPage).bind MainGo.appModel.withStatus := by
        simp [MainGo.appModel.Update]
      rw [hU] at hr
      obtain ⟨g1, g2, g3, g4, g5, g6, g7, g8⟩ := hlist _ r hr
      exact ⟨g1, g2, g3, g4, g5, g6, g7, g8, fun hc => absurd hc (by decide)⟩
    · intro hne
      have hU : d.Update gitD (DiffExploreGo.Msg.KeyMsg "ctrl+u")
          = DiffExploreGo.appModel.done (d.onCurrentList listModel.prevPage) := by
        simp [DiffExploreGo.appModel.Update]
      obtain ⟨d1, g0, g1, g2, g3, g4, g5, g6, g7⟩ := hlistD listModel.prevPage hne
      exact ⟨d1, by rw [hU]; exact g0, g1, g2, g3, g4, g5, g6, g7,
        fun hc => absurd hc (by decide)⟩
  · constructor
    · intro r hr
      have hU : m.Update ops git (MainGo.Msg.KeyMsg "j")
          = (m.onCurrentList ops.nextItem).bind MainGo.appModel.withStatus := by
        simp [MainGo.appModel.Update]
      rw [hU] at hr
      obtain ⟨g1, g2, g3, g4, g5, g6, g7, g8⟩ := hlist _ r hr
      exact ⟨g1, g2, g3, g4, g5, g6, g7, g8, fun hc => absurd hc (by decide)⟩
    · intro hne
      have hU : d.Update gitD (DiffExploreGo.Msg.KeyMsg "j")
          = DiffExploreGo.appModel.done (d.onCurrentList listModel.nextItem) := by
        simp [DiffExploreGo.appModel.Update]
      obtain ⟨d1, g0, g1, g2, g3, g4, g5, g6, g7⟩ := hlistD listModel.nextItem hne
      exact ⟨d1, by rw [hU]; exact g0, g1, g2, g3, g4, g5, g6, g7,
        fun hc => absurd hc (by decide)⟩
  · constructor
    · intro r hr
      have hU : m.Update ops git (MainGo.Msg.KeyMsg "k")
          = (m.onCurrentList ops.prevItem).bind MainGo.appModel.withStatus := by
        simp [MainGo.appModel.Update]
      rw [hU] at hr
      obtain ⟨g1, g2, g3, g4, g5, g6, g7, g8⟩ := hlist _ r hr
      exact ⟨g1, g2, g3, g4, g5, g6, g7, g8, fun hc => absurd hc (by decide)⟩
    · intro hne
      have hU : d.Update gitD (DiffExploreGo.Msg.KeyMsg "k")
          = DiffExploreGo.appModel.done (d.onCurrentList listModel.prevItem) := by
        simp [DiffExploreGo.appModel.Update]
      obtain ⟨d1, g0, g1, g2, g3, g4, g5, g6, g7⟩ := hlistD listModel.prevItem hne
      exact ⟨d1, by rw [hU]; exact g0, g1, g2, g3, g4, g5, g6, g7,
        fun hc => absurd hc (by decide)⟩

/-- Witness of `keys_routed_to_top`: the key j on the example Stats screens of main.go
and diff-explore.go. -/
theorem keys_routed_to_top_witness :
    (({ MainGo.exampleStats with statsList := ⟨2, 1, 2, 2, 1, -1⟩ } : MainGo.appModel).history
        = MainGo.exampleStats.history ∧
      ({ MainGo.exampleStats with statsList := ⟨2, 1, 2, 2, 1, -1⟩ } : MainGo.appModel).commitsList
        = MainGo.exampleStats.commitsList ∧
      ({ MainGo.exampleStats with statsList := ⟨2, 1, 2, 2, 1, -1⟩ } : MainGo.appModel).diffModel
        = MainGo.exampleStats.diffModel) ∧
    (∃ d1, DiffExploreGo.exampleStats.Update ⟨fun _ _ => [], fun _ _ _ => []⟩
          (DiffExploreGo.Msg.KeyMsg "j") = some (d1, DiffExploreGo.Cmd.none) ∧
        d1.history = DiffExploreGo.exampleStats.history ∧
        d1.commitsList = DiffExploreGo.exampleStats.commitsList ∧
        d1.diffModel = DiffExploreGo.exampleStats.diffModel) := by
  have h := keys_routed_to_top MainGo.exampleOps MainGo.exampleGit MainGo.exampleStats
    ⟨fun _ _ => [], fun _ _ _ => []⟩ DiffExploreGo.exampleStats "j" (by decide)
  obtain ⟨a1, a2, a3, a4, a5, a6, a7, a8, a9⟩ :=
    h.1 ({ MainGo.exampleStats with statsList := ⟨2, 1, 2, 2, 1, -1⟩ }, MainGo.Cmd.none)
      (by decide)
  obtain ⟨d1, b0, b1, b2, b3, b4, b5, b6, b7, b8⟩ := h.2 (by decide)
  exact ⟨⟨a2, a6 (by decide), a8 (by decide)⟩, d1, b0, b1, b5 (by decide), b7 (by decide)⟩

namespace MainGo

/-- C15: for every app state (in particular with a non-empty view stack) and every
filechange message such that the top screen is not Diff or the path differs from
`diffModel.path`, `Update` does what the status refresh alone does: it installs
no new diff and leaves the three list models, `diffModel.path`, the view stack,
`watcherReady` and the commits and stats unchanged. -/
theorem filechange_elsewhere_ignored (ops : ListOps) (git : Git) (m : appModel)
    (w : watcherMessage) (hev : w.event = "filechange")
    (hcond : m.currentView ≠ some diffView ∨ w.path ≠ m.diffModel.path) :
    m.Update ops git (Msg.watcher w) = m.withStatus ∧
    ∀ r, m.Update ops git (Msg.watcher w) = some r →
      r.2 = Cmd.none ∧ r.1.diff = m.diff ∧ r.1.commitsList = m.commitsList ∧
      r.1.statsList = m.statsList ∧ r.1.diffModel = m.diffModel ∧
      r.1.history = m.history ∧ r.1.watcherReady = m.watcherReady ∧
      r.1.commits = m.commits ∧ r.1.stats = m.stats := by
  have hU : m.Update ops git (Msg.watcher w) = m.withStatus := by
    have hU1 : m.Update ops git (Msg.watcher w)
        = (m.filechange ops git w).bind appModel.withStatus := by
      simp [appModel.Update, hev]
    rw [hU1]
    unfold appModel.filechange
    cases hv : m.currentView with
    | none =>
      simp only [Option.none_bind]
      unfold appModel.withStatus appModel.getStatus
      rw [hv]
    | some v =>
      have hc : ¬ (v = diffView ∧ m.diffModel.path = w.path) := by
        rintro ⟨h1, h2⟩
        rcases hcond with hc | hc
        · exact hc (by rw [hv, h1])
        · exact hc h2.symm
      simp only [if_neg hc, Option.some_bind]
  refine ⟨hU, ?_⟩
  intro r hr
  rw [hU] at hr
  obtain ⟨s, _, hr1⟩ := withStatus_some m r hr
  rw [hr1]
  exact ⟨rfl, rfl, rfl, rfl, rfl, rfl, rfl, rfl, rfl⟩

/-- Witness of `filechange_elsewhere_ignored`: the Diff screen showing "a.go" and a
notification for "b.go"; the model is returned unchanged. -/
theorem filechange_elsewhere_ignored_witness :
    exampleDiff.Update exampleOps exampleGit (Msg.watcher ⟨"filechange", "b.go"⟩)
      = exampleDiff.withStatus ∧
    exampleDiff.Update exampleOps exampleGit (Msg.watcher ⟨"filechange", "b.go"⟩)
      = some (exampleDiff, Cmd.none) :=
  ⟨(filechange_elsewhere_ignored exampleOps exampleGit exampleDiff ⟨"filechange", "b.go"⟩
      (by decide) (by decide)).1, by decide⟩

end MainGo

namespace MainGo

/-- When `getStatus` returns on one of the three screens, the commit range could be
computed. -/
theorem getStatus_some_range (m : appModel) (s : String) (h : m.getStatus = some s)
    (hv : m.currentView = some commitsView ∨ m.currentView = some statsView ∨
      m.currentView = some diffView) :
    ∃ r, m.getCommitRange = some r := by
  have hsc : ¬ (statsView = commitsView) := by decide
  have hdc : ¬ (diffView = commitsView) := by decide
  have hds : ¬ (diffView = statsView) := by decide
  cases hr : m.getCommitRange with
  | some r => exact ⟨r, rfl⟩
  | none =>
    unfold appModel.getStatus at h
    rcases hv with hv | hv | hv
    · rw [hv] at h
      simp only [if_true, hr] at h
      exact absurd h (by simp)
    · rw [hv] at h
      simp only [if_neg hsc, if_true, hr] at h
      exact absurd h (by simp)
    · rw [hv] at h
      simp only [if_neg hdc, if_neg hds, if_true, hr] at h
      exact absurd h (by simp)

/-- The status text on the Commits and on the Stats screen. -/
theorem getStatus_on_commits_or_stats (m : appModel) (r : String × String)
    (hv : m.currentView = some commitsView ∨ m.currentView = some statsView)
    (hr : m.getCommitRange = some r) :
    m.getStatus = some (appModel.rangeText r) := by
  have hsc : ¬ (statsView = commitsView) := by decide
  unfold appModel.getStatus
  rcases hv with hv | hv
  · rw [hv]
    simp only [if_true, hr]
  · rw [hv]
    simp only [if_neg hsc, if_true, hr]

/-- Every state that `Update` returns below the root screen has a commit range
that can be computed: its status was refreshed from it. -/
theorem Update_range (ops : ListOps) (git : Git) (m : appModel) (msg : Msg)
    (r : appModel × Cmd) (h : m.Update ops git msg = some r)
    (hc : m.history = [commitsView] ∨ m.history = [commitsView, statsView] ∨
      m.history = [commitsView, statsView, diffView])
    (hm : m.history ≠ [commitsView] → ∃ r0, m.getCommitRange = some r0) :
    r.1.history ≠ [commitsView] → ∃ r0, r.1.getCommitRange = some r0 := by
  intro hne
  have hc1 := Update_chain ops git m msg r h hc
  rcases Update_cases ops git m msg r h with hq | ⟨m1, s, hs, hr, _⟩
  · rw [hq] at hne ⊢
    exact hm hne
  · have hh : r.1.history = m1.history := by rw [hr]
    have hg : r.1.getCommitRange = m1.getCommitRange := by rw [hr]; rfl
    rw [hg]
    rw [hh] at hc1
    apply getStatus_some_range m1 s hs
    rcases hc1 with hc1 | hc1 | hc1
    · exact Or.inl (currentView_snoc m1 [] commitsView hc1)
    · exact Or.inr (Or.inl (currentView_snoc m1 [commitsView] statsView hc1))
    · exact Or.inr (Or.inr (currentView_snoc m1 [commitsView, statsView] diffView hc1))

/-- Every state reached from a drill-down chain has a drill-down chain, and below the
root screen a commit range that can be computed. -/
theorem run_range (ops : ListOps) (git : Git) (msgs : List Msg) (m m2 : appModel)
    (hc : m.history = [commitsView] ∨ m.history = [commitsView, statsView] ∨
      m.history = [commitsView, statsView, diffView])
    (hm : m.history ≠ [commitsView] → ∃ r0, m.getCommitRange = some r0)
    (h : run ops git m msgs = some m2) :
    (m2.history = [commitsView] ∨ m2.history = [commitsView, statsView] ∨
      m2.history = [commitsView, statsView, diffView]) ∧
    (m2.history ≠ [commitsView] → ∃ r0, m2.getCommitRange = some r0) := by
  induction msgs generalizing m with
  | nil =>
    simp only [run, Option.some.injEq] at h
    rw [← h]; exact ⟨hc, hm⟩
  | cons msg rest ih =>
    unfold run at h
    cases hu : m.Update ops git msg with
    | none => rw [hu] at h; simp at h
    | some r =>
      obtain ⟨m1, c⟩ := r
      have hc1 := Update_chain ops git m msg (m1, c) hu hc
      have hm1 := Update_range ops git m msg (m1, c) hu hc hm
      rw [hu] at h
      cases c with
      | Quit =>
        simp only [Option.some.injEq] at h
        rw [← h]; exact ⟨hc1, hm1⟩
      | none => exact ih m1 hc1 hm1 h

/-- On a reached state below the root screen, esc returns the state with the top
of the view stack removed and the status text of the commit range. -/
theorem esc_pops_reached (ops : ListOps) (git : Git) (m : appModel) (r : String × String)
    (hc : m.history = [commitsView, statsView] ∨
      m.history = [commitsView, statsView, diffView])
    (hr : m.getCommitRange = some r) :
    m.Update ops git (Msg.KeyMsg "esc")
      = some ({ m with history := m.history.dropLast, status := appModel.rangeText r },
          Cmd.none) := by
  have h2 : ¬ ((m.history.length : Int) = 1) := by
    rcases hc with hc | hc <;> rw [hc] <;> decide
  have hpm : m.popView = some { m with history := m.history.dropLast } := by
    unfold appModel.popView
    have hlen : ¬ ((m.history.length : Int) - 1 < 0) := by
      rcases hc with hc | hc <;> rw [hc] <;> decide
    rw [if_neg hlen, List.dropLast_eq_take]
  have hU : m.Update ops git (Msg.KeyMsg "esc") = m.popView.bind appModel.withStatus := by
    simp [appModel.Update, h2]
  have hv : appModel.currentView { m with history := m.history.dropLast } = some commitsView ∨
      appModel.currentView { m with history := m.history.dropLast } = some statsView := by
    rcases hc with hc | hc
    · left
      apply currentView_snoc _ [] commitsView
      show m.history.dropLast = [] ++ [commitsView]
      rw [hc]; rfl
    · right
      apply currentView_snoc _ [commitsView] statsView
      show m.history.dropLast = [commitsView] ++ [statsView]
      rw [hc]; rfl
  have hgs := getStatus_on_commits_or_stats { m with history := m.history.dropLast } r hv hr
  rw [hU, hpm, Option.some_bind]
  unfold appModel.withStatus
  rw [hgs]

end MainGo

/-- C16: for every app state of main.go that the program reaches from its initial
state, and for every app state of diff-explore.go with a non-empty view stack,
handling the cancel key (esc) returns the quit command and the unchanged model
when the view stack has exactly one entry, and otherwise returns no command and
the model whose view stack is the old one with exactly its top entry removed
(in main.go with the status text refreshed from the commit range).  A reached
state of main.go always has a non-empty view stack, and `Update` returns in
every case. -/
theorem esc_pops_or_quits (ops : MainGo.ListOps) (git : MainGo.Git) (commits : List commit)
    (msgs : List MainGo.Msg) (m : MainGo.appModel)
    (gitD : DiffExploreGo.Git) (d : DiffExploreGo.appModel)
    (hrun : MainGo.run ops git (MainGo.initialModel ops commits) msgs = some m)
    (hd : d.history ≠ []) :
    m.history ≠ [] ∧
    (m.history.length = 1 →
      m.Update ops git (MainGo.Msg.KeyMsg "esc") = some (m, MainGo.Cmd.Quit)) ∧
    (m.history.length ≠ 1 → ∃ r, m.getCommitRange = some r ∧
      m.Update ops git (MainGo.Msg.KeyMsg "esc")
        = some ({ m with history := m.history.dropLast,
                         status := MainGo.appModel.rangeText r }, MainGo.Cmd.none)) ∧
    (d.history.length = 1 →
      d.Update gitD (DiffExploreGo.Msg.KeyMsg "esc") = some (d, DiffExploreGo.Cmd.Quit)) ∧
    (d.history.length ≠ 1 →
      d.Update gitD (DiffExploreGo.Msg.KeyMsg "esc")
        = some ({ d with history := d.history.dropLast }, DiffExploreGo.Cmd.none)) := by
  obtain ⟨hc, hrange⟩ := MainGo.run_range ops git msgs (MainGo.initialModel ops commits) m
    (Or.inl rfl) (fun hne => absurd rfl hne) hrun
  have hdpos : 0 < d.history.length := List.length_pos.mpr hd
  have hpd : d.popView = some { d with history := d.history.dropLast } := by
    unfold DiffExploreGo.appModel.popView
    rw [if_neg (by omega), List.dropLast_eq_take]
  refine ⟨?_, ?_, ?_, ?_, ?_⟩
  · rcases hc with hc | hc | hc <;> rw [hc] <;> simp
  · intro h1
    have h2 : (m.history.length : Int) = 1 := by omega
    simp [MainGo.appModel.Update, h2]
  · intro h1
    have hne : m.history ≠ [MainGo.commitsView] := by
      intro hx
      rw [hx] at h1
      exact h1 rfl
    obtain ⟨r, hr⟩ := hrange hne
    rcases hc with hc | hc | hc
    · exact absurd hc hne
    · exact ⟨r, hr, MainGo.esc_pops_reached ops git m r (Or.inl hc) hr⟩
    · exact ⟨r, hr, MainGo.esc_pops_reached ops git m r (Or.inr hc) hr⟩
  · intro h1
    have h2 : (d.history.length : Int) = 1 := by omega
    simp [DiffExploreGo.appModel.Update, h2]
  · intro h1
    have h2 : ¬ ((d.history.length : Int) = 1) := by omega
    have hU : d.Update gitD (DiffExploreGo.Msg.KeyMsg "esc")
        = DiffExploreGo.appModel.done d.popView := by
      simp [DiffExploreGo.appModel.Update, h2]
    rw [hU, hpd]
    rfl

/-- Witness of `esc_pops_or_quits`: esc on the example Stats screens, the one of
main.go reached by a resize and enter, pops to the Commits screen, and esc on the
initial Commits screen of main.go quits. -/
theorem esc_pops_or_quits_witness :
    MainGo.exampleStats.Update MainGo.exampleOps MainGo.exampleGit (MainGo.Msg.KeyMsg "esc")
        = some ({ MainGo.exampleStats with
            history := [MainGo.commitsView], status := "cccccccc..<index>" },
          MainGo.Cmd.none) ∧
    (MainGo.initialModel MainGo.exampleOps MainGo.exampleCommits).Update MainGo.exampleOps
        MainGo.exampleGit (MainGo.Msg.KeyMsg "esc")
      = some (MainGo.initialModel MainGo.exampleOps MainGo.exampleCommits, MainGo.Cmd.Quit) ∧
    DiffExploreGo.exampleStats.Update ⟨fun _ _ => [], fun _ _ _ => []⟩
        (DiffExploreGo.Msg.KeyMsg "esc")
      = some ({ DiffExploreGo.exampleStats with history := [DiffExploreGo.commitsView] },
          DiffExploreGo.Cmd.none) := by
  have h1 := esc_pops_or_quits MainGo.exampleOps MainGo.exampleGit MainGo.exampleCommits
    [MainGo.Msg.WindowSizeMsg 80 10, MainGo.Msg.KeyMsg "enter"] MainGo.exampleStats
    ⟨fun _ _ => [], fun _ _ _ => []⟩ DiffExploreGo.exampleStats (by decide) (by decide)
  have h2 := esc_pops_or_quits MainGo.exampleOps MainGo.exampleGit MainGo.exampleCommits
    [] (MainGo.initialModel MainGo.exampleOps MainGo.exampleCommits)
    ⟨fun _ _ => [], fun _ _ _ => []⟩ DiffExploreGo.exampleStats (by decide) (by decide)
  exact ⟨by decide, h2.2.1 (by decide), h1.2.2.2.2 (by decide)⟩

/-! ## The size of the list on screen in diff-explore.go -/

/-- After `setHeight` the stored height is min(h, count), the window has that many
rows and the count is unchanged. -/
theorem listModel.setHeight_sized (m : listModel) (ht : Int) :
    (m.setHeight ht).height = min ht (m.setHeight ht).count ∧
      (m.setHeight ht).last - (m.setHeight ht).first + 1 = (m.setHeight ht).height := by
  simp only [listModel.setHeight]
  split_ifs <;> (try dsimp only at *) <;> omega

namespace DiffExploreGo

/-- The current view is the last entry of the view stack. -/
theorem topView_of_snoc (m : appModel) (hs : List view) (v : view)
    (h : m.history = hs ++ [v]) : m.currentView = some v := by
  unfold appModel.currentView goIndex
  rw [h]
  have h1 : ¬ (((hs ++ [v]).length : Int) - 1 < 0) := by
    simp only [List.length_append, List.length_singleton]
    omega
  rw [if_neg h1]
  have h2 : (((hs ++ [v]).length : Int) - 1).toNat = hs.length := by
    simp only [List.length_append, List.length_singleton]
    omega
  rw [h2]
  simp

/-- A resize sizes the list on screen: on every non-empty view stack `Update`
returns, stores the new terminal height, and the list of the screen on top has
the stored height min(m.height, count) and a window of that many rows. -/
theorem Update_resize_sizes_top (git : Git) (m : appModel) (w ht : Int)
    (hne : m.history ≠ []) :
    ∃ m1, m.Update git (Msg.WindowSizeMsg w ht) = some (m1, Cmd.none) ∧
      m1.height = ht ∧ m1.history = m.history ∧
      ∀ l, m1.topList = some l →
        l.height = min m1.height l.count ∧ l.last - l.first + 1 = l.height := by
  have hpos : 0 < m.history.length := List.length_pos.mpr hne
  obtain ⟨v, hv⟩ := goIndex_of_lt m.history ((m.history.length : Int) - 1) (by omega) (by omega)
  have hv1 : m.currentView = some v := hv
  have hU : m.Update git (Msg.WindowSizeMsg w ht)
      = appModel.done (appModel.onCurrentList { m with width := w, height := ht }
          (fun l => l.setHeight ht)) := rfl
  have hcv : appModel.currentView { m with width := w, height := ht } = some v := hv
  rw [hU]
  unfold appModel.onCurrentList
  rw [hcv]
  simp only
  split_ifs with h1 h2 h3
  · refine ⟨_, rfl, rfl, rfl, ?_⟩
    intro l hl
    unfold appModel.topList at hl
    have hc : appModel.currentView
        { m with width := w, height := ht, commitsList := m.commitsList.setHeight ht }
        = some v := hv
    rw [hc] at hl
    simp only [if_pos h1, Option.some.injEq] at hl
    subst hl
    exact listModel.setHeight_sized m.commitsList ht
  · refine ⟨_, rfl, rfl, rfl, ?_⟩
    intro l hl
    unfold appModel.topList at hl
    have hc : appModel.currentView
        { m with width := w, height := ht, statsList := m.statsList.setHeight ht }
        = some v := hv
    rw [hc] at hl
    simp only [if_neg h1, if_pos h2, Option.some.injEq] at hl
    subst hl
    exact listModel.setHeight_sized m.statsList ht
  · refine ⟨_, rfl, rfl, rfl, ?_⟩
    intro l hl
    unfold appModel.topList at hl
    have hc : appModel.currentView
        { m with width := w, height := ht, diffModel := m.diffModel.setHeight ht }
        = some v := hv
    rw [hc] at hl
    simp only [if_neg h1, if_neg h2, if_pos h3, Option.some.injEq] at hl
    subst hl
    exact listModel.setHeight_sized m.diffModel ht
  · refine ⟨_, rfl, rfl, rfl, ?_⟩
    intro l hl
    unfold appModel.topList at hl
    rw [hcv] at hl
    simp [if_neg h1, if_neg h2, if_neg h3] at hl

/-- Enter sizes the list it opens: when enter on the Commits screen returns, the
Stats list is on top, and when enter on the Stats screen returns, the Diff list
is on top; either has the stored height min(m.height, count) and a window of
that many rows. -/
theorem enter_sizes_top (git : Git) (m m1 : appModel) (h : m.enter git = some m1) :
    m1.height = m.height ∧
    (m.currentView = some commitsView →
      m1.topList = some m1.statsList ∧
        m1.statsList.height = min m1.height m1.statsList.count ∧
        m1.statsList.last - m1.statsList.first + 1 = m1.statsList.height) ∧
    (m.currentView = some statsView →
      m1.topList = some m1.diffModel ∧
        m1.diffModel.height = min m1.height m1.diffModel.count ∧
        m1.diffModel.last - m1.diffModel.first + 1 = m1.diffModel.height) := by
  have hsc : ¬ (statsView = commitsView) := by decide
  have hcs : ¬ (commitsView = statsView) := by decide
  have hdc : ¬ (diffView = commitsView) := by decide
  have hds : ¬ (diffView = statsView) := by decide
  unfold appModel.enter at h
  cases hv : m.currentView with
  | none => rw [hv] at h; simp at h
  | some v =>
    rw [hv] at h
    simp only at h
    split_ifs at h with h1 h2
    · cases hc : goIndex m.commits m.commitsList.cursor with
      | none => rw [hc] at h; simp at h
      | some c =>
        rw [hc] at h
        simp only at h
        cases hp : goPrefix c.Commit 8 with
        | none => rw [hp] at h; simp at h
        | some a =>
          rw [hp] at h
          simp only [Option.some.injEq] at h
          subst h
          subst h1
          refine ⟨rfl, ?_, ?_⟩
          · intro _
            refine ⟨?_, listModel.setHeight_sized _ m.height⟩
            unfold appModel.topList
            rw [topView_of_snoc _ m.history statsView rfl]
            simp only [if_neg hsc, if_true]
          · intro hc2
            exact absurd (Option.some.inj hc2) hcs
    · cases hc : goIndex m.commits m.commitsList.cursor with
      | none => rw [hc] at h; simp at h
      | some c =>
        rw [hc] at h
        simp only at h
        cases hp : goPrefix c.Commit 8 with
        | none => rw [hp] at h; simp at h
        | some a =>
          rw [hp] at h
          simp only at h
          cases hd : goIndex m.stats m.statsList.cursor with
          | none => rw [hd] at h; simp at h
          | some st =>
            rw [hd] at h
            simp only [Option.some.injEq] at h
            subst h
            subst h2
            refine ⟨rfl, ?_, ?_⟩
            · intro hc2
              exact absurd (Option.some.inj hc2) hsc
            · intro _
              refine ⟨?_, listModel.setHeight_sized _ m.height⟩
              unfold appModel.topList
              rw [topView_of_snoc _ m.history diffView rfl]
              simp only [if_neg hdc, if_neg hds, if_true]
    · simp only [Option.some.injEq] at h
      subst h
      refine ⟨rfl, ?_, ?_⟩
      · intro hc2
        exact absurd (Option.some.inj hc2) h1
      · intro hc2
        exact absurd (Option.some.inj hc2) h2

/-- C21 (the code at the failing input): over six commits, a resize to 80 x 4,
enter, a resize to 80 x 2 and esc lead back to the Commits screen with the
terminal height 2 while the Commits list, the list on screen, still has the
stored height 4 and the window [0, 3] of four rows: its height is not
min(m.height, count) = 2.  Before the esc the list on screen, the Stats list, is
sized to the terminal. -/
theorem esc_leaves_stale_height :
    run exampleGit (initialModel exampleCommits)
        [Msg.WindowSizeMsg 80 4, Msg.KeyMsg "enter", Msg.WindowSizeMsg 80 2]
      = some { exampleStale with history := [commitsView, statsView] } ∧
    appModel.topList { exampleStale with history := [commitsView, statsView] }
      = some ⟨2, 0, 1, 2, 0, -1⟩ ∧
    run exampleGit (initialModel exampleCommits)
        [Msg.WindowSizeMsg 80 4, Msg.KeyMsg "enter", Msg.WindowSizeMsg 80 2, Msg.KeyMsg "esc"]
      = some exampleStale ∧
    exampleStale.height = 2 ∧
    exampleStale.topList = some ⟨6, 0, 3, 4, 0, -1⟩ ∧
    ¬ ((⟨6, 0, 3, 4, 0, -1⟩ : listModel).height
        = min exampleStale.height (⟨6, 0, 3, 4, 0, -1⟩ : listModel).count) := by
  decide

end DiffExploreGo
